import Mathlib

/-!
# cncstream: flow-controlled streaming of a command file over a serial link

A shallow embedding of `cncstream.c`.

* Bytes and the 8/16/64-bit counters of the program are natural numbers; every
  C operation that can wrap carries its explicit modulus.
* A 256-byte array is the map from its index to the byte stored there.
* The command file is the list of the bytes that `getc` still has to return.
* The serial input is the list of the results that the coming one-byte `read`
  calls will have: `some b` when byte `b` arrived within the timeout, `none`
  when the read timed out.  After the end of that list every read times out,
  so a loop that polls an empty list never ends; the model reports it as a hang.
  A `read` that fails with an error is not modelled.
* The firmware is a function from a written payload to the read results that
  this write makes available; they are appended to the pending ones.
* The program ignores the result of `write` apart from printing a message, so a
  write is modelled as transmitting its whole payload.
* `main` is modelled from the declaration of the window (line 175) on: argument
  parsing, opening the file and the device, and the wake-up write come before.
* Every run carries the record of what it did (reads, acknowledge steps, stages
  and writes, a write with the pending entries at that moment).  The window at
  any point of a run is the replay of the steps recorded up to that point.
-/

namespace Cncstream

/-! ## Byte arrays -/

/-- A `uint8_t[256]` array: the map from an index to the byte stored there.  The
program only touches the cells 0..255. -/
abbrev Buf := Nat → Nat

/-- The array after `memset(buf, 0, 256)`. -/
def zeroed : Buf := fun _ => 0

/-- The array after the assignment `buf[i] = v`. -/
def store (buf : Buf) (i v : Nat) : Buf := fun j => if j = i then v else buf j

/-- The bytes `buf[p], ..., buf[p + n - 1]`, as handed to `write(fd, buf + p, n)`. -/
def bytes_at (buf : Buf) (p n : Nat) : List Nat := (List.range n).map (fun k => buf (p + k))

/-! ## `file_readline` (cncstream.c, lines 42-52) -/

/-- The `while ((ch != '\n') && (ch != EOF))` loop of `file_readline`: the head of
`file` is the byte `ch` just returned by `getc` (an empty list is `EOF`), `i` is
the 8-bit index.  Returns the buffer, the final `i` and the unread rest of the
file. -/
def file_readline_loop : List Nat → Buf → Nat → Buf × Nat × List Nat
  | [], buf, i => (buf, i, [])
  | ch :: rest, buf, i =>
    if ch = 10 then (buf, i, rest)
    else file_readline_loop rest (store buf i ch) ((i + 1) % 256)

/-- `file_readline(file, buf)`: clears the buffer, then copies bytes up to the
next `'\n'` or the end of the file. -/
def file_readline (file : List Nat) : Buf × Nat × List Nat :=
  file_readline_loop file zeroed 0

/-! ## `serial_readline` (cncstream.c, lines 54-72) -/

/-- The `while (read(serial, &buf[i], 1))` loop of `serial_readline`.  A read
that returns a byte has stored it in `buf[i]` before the loop body looks at it. -/
def serial_readline_loop : List (Option Nat) → Buf → Nat → Buf × Nat × List (Option Nat)
  | [], buf, i => (buf, i, [])
  | none :: rest, buf, i => (buf, i, rest)
  | some ch :: rest, buf, i =>
    if ch = 13 then serial_readline_loop rest (store buf i ch) i
    else if ch = 10 then (store (store buf i ch) i 0, (i + 1) % 256, rest)
    else serial_readline_loop rest (store buf i ch) ((i + 1) % 256)

/-- `serial_readline(serial, buf)`: clears the buffer and reads up to the next
`'\n'` or the first read that times out. -/
def serial_readline (serial : List (Option Nat)) : Buf × Nat × List (Option Nat) :=
  serial_readline_loop serial zeroed 0

/-! ## `trim_whitespace` (cncstream.c, lines 74-93) -/

/-- The loop `while (*str == ' ') str++`, with `left` bytes of the array left
from `str` on.  `none`: the loop would read past the end of the array. -/
def skip_spaces (buf : Buf) : Nat → Nat → Option Nat
  | 0, _ => none
  | left + 1, str => if buf str = 32 then skip_spaces buf left (str + 1) else some str

/-- `strlen(str)`, with `left` bytes of the array left from `str` on.  `none`:
there is no NUL before the end of the array. -/
def strlen (buf : Buf) : Nat → Nat → Option Nat
  | 0, _ => none
  | left + 1, str => if buf str = 0 then some 0 else (strlen buf left (str + 1)).map (· + 1)

/-- The loop `while ((end > str) && (*end == ' ')) end--`, started at `end`. -/
def back_spaces (buf : Buf) (str : Nat) : Nat → Nat
  | 0 => 0
  | e + 1 => if e + 1 > str ∧ buf (e + 1) = 32 then back_spaces buf str e else e + 1

/-- `trim_whitespace(buf)`: returns the array with the new terminator written
and the offset of the returned pointer.  `none`: an access outside the array. -/
def trim_whitespace (buf : Buf) : Option (Buf × Nat) :=
  match skip_spaces buf 256 0 with
  | none => none
  | some str =>
    if buf str = 0 then some (buf, str)
    else
      match strlen buf (256 - str) str with
      | none => none
      | some len =>
        let e := back_spaces buf str (str + len - 1)
        some (store buf (e + 1) 0, str)

/-! ## `sum` (cncstream.c, lines 95-104) -/

/-- The `for` loop of `sum`, with `left = 255 - i` iterations to go and the
16-bit accumulator `s`. -/
def sum_loop (line_lengths : Buf) : Nat → Nat → Nat → Nat
  | 0, _, s => s
  | left + 1, i, s =>
    if line_lengths i = 0 then s
    else sum_loop line_lengths left (i + 1) ((s + line_lengths i) % 65536)

/-- `sum(line_lengths)`. -/
def sum (line_lengths : Buf) : Nat := sum_loop line_lengths 255 0 0

/-! ## The pending window of `main` (lines 175-177, 204-205, 223-224) -/

/-- The array `line_lengths` and the 8-bit count `lli`. -/
structure Window where
  line_lengths : Buf
  lli : Nat

/-- The window after `memset(line_lengths, 0, 256); lli = 0`. -/
def Window.init : Window := ⟨zeroed, 0⟩

/-- The first `lli` entries of `line_lengths`. -/
def Window.pending (w : Window) : List Nat := bytes_at w.line_lengths 0 w.lli

/-- The statements `line_lengths[lli] = length; lli++`. -/
def stage (w : Window) (length : Nat) : Window :=
  ⟨store w.line_lengths w.lli length, (w.lli + 1) % 256⟩

/-- The array after `memmove(&a[0], &a[1], n)`. -/
def memmove_down (a : Buf) (n : Nat) : Buf := fun j => if j < n then a (j + 1) else a j

/-- The statements `memmove(&line_lengths[0], &line_lengths[1], lli); lli--`. -/
def acknowledge (w : Window) : Window :=
  ⟨memmove_down w.line_lengths w.lli, (w.lli + 255) % 256⟩

/-! ## The controller: the loops of `main` (lines 175-264) -/

/-- What the controller does, in program order. -/
inductive Ev
  | read (read_count : Nat)
  | ack
  | stage (length : Nat)
  | write (payload : List Nat) (pending : List Nat)
  deriving DecidableEq, Repr

/-- How a loop of the model ended: `done` it was left as in the program, `hang`
it polls a transport that will never deliver another byte, `fault` the program
accessed memory outside `writebuf`, `fuel` the iteration bound of the model was
used up. -/
inductive Status
  | done
  | hang
  | fault
  | fuel
  deriving DecidableEq, Repr

/-- The state of `main`: unread file, coming read results, window, the 64-bit
`line_count` and the record of what was done so far. -/
structure CState where
  file : List Nat
  serial : List (Option Nat)
  win : Window
  line_count : Nat
  trace : List Ev

/-- The statement `read_count = serial_readline(serial, readbuf)`. -/
def CState.readline (st : CState) : Nat × CState :=
  let r := serial_readline st.serial
  (r.2.1, { st with serial := r.2.2, trace := st.trace ++ [Ev.read r.2.1] })

/-- The acknowledge step on the controller state. -/
def CState.ack (st : CState) : CState :=
  { st with win := acknowledge st.win, trace := st.trace ++ [Ev.ack] }

/-- The loop `while (sum_line_lengths >= 127)` (lines 212-227). -/
def throttle : Nat → Nat → CState → Status × CState
  | 0, _, st => (Status.fuel, st)
  | fuel + 1, sum_line_lengths, st =>
    if sum_line_lengths ≥ 127 then
      match st.serial with
      | [] => (Status.hang, st)
      | _ :: _ =>
        let r := st.readline
        if r.1 > 0 then throttle fuel (sum r.2.ack.win.line_lengths) r.2.ack
        else throttle fuel sum_line_lengths r.2
    else (Status.done, st)

/-- The statements after the throttle loop (lines 235-245): terminate the
command with `'\n'`, write it, read one line from the firmware, acknowledge if
something was read, and count the line.  The firmware is `fw`: the read results
that a written payload makes available. -/
def transmit (fw : List Nat → List (Option Nat)) (buf : Buf) (trimmed length : Nat)
    (st : CState) : CState :=
  let payload := bytes_at (store buf (trimmed + length) 10) trimmed (length + 1)
  let st1 : CState := { st with serial := st.serial ++ fw payload,
                                trace := st.trace ++ [Ev.write payload st.win.pending] }
  let r := st1.readline
  let st2 := if r.1 > 0 then r.2.ack else r.2
  { st2 with line_count := (st2.line_count + 1) % 2 ^ 64 }

/-- The loop `while (file_readline(file, writebuf))` (lines 191-246). -/
def stream_loop (fw : List Nat → List (Option Nat)) : Nat → CState → Status × CState
  | 0, st => (Status.fuel, st)
  | fuel + 1, st =>
    let r := file_readline st.file
    let st0 := { st with file := r.2.2 }
    if r.2.1 = 0 then (Status.done, st0)
    else
      match trim_whitespace r.1 with
      | none => (Status.fault, st0)
      | some (buf, trimmed) =>
        if buf trimmed = 59 then stream_loop fw fuel st0
        else
          match strlen buf (256 - trimmed) trimmed with
          | none => (Status.fault, st0)
          | some len =>
            let length := len % 256
            let st1 := { st0 with win := stage st0.win length,
                                  trace := st0.trace ++ [Ev.stage length] }
            match throttle (st1.serial.length + 1) (sum st1.win.line_lengths) st1 with
            | (Status.done, st2) => stream_loop fw fuel (transmit fw buf trimmed length st2)
            | other => other

/-- The loop `while (lli > 2)` (lines 253-262). -/
def drain : Nat → CState → Status × CState
  | 0, st => (Status.fuel, st)
  | fuel + 1, st =>
    if st.win.lli > 2 then
      match st.serial with
      | [] => (Status.hang, st)
      | _ :: _ =>
        let r := st.readline
        if r.1 > 0 then drain fuel r.2.ack else drain fuel r.2
    else (Status.done, st)

/-- The run of `main` from line 175 on: streaming, then draining. -/
def controller (fw : List Nat → List (Option Nat)) (file : List Nat)
    (serial : List (Option Nat)) : Status × CState :=
  match stream_loop fw (file.length + 1) ⟨file, serial, Window.init, 0, []⟩ with
  | (Status.done, st) => drain (st.serial.length + 1) st
  | other => other

/-- A firmware that does not react to writes: all it sends is in the read
results given to the controller at the start. -/
def fw_silent : List Nat → List (Option Nat) := fun _ => []

/-- A firmware that answers every write with the line `"ok\n"`. -/
def fw_ok : List Nat → List (Option Nat) := fun _ => [some 111, some 107, some 10]

/-- The payloads written, in order. -/
def writes : List Ev → List (List Nat)
  | [] => []
  | Ev.write payload _ :: t => payload :: writes t
  | _ :: t => writes t

/-- The number of acknowledge steps. -/
def acks : List Ev → Nat
  | [] => 0
  | Ev.ack :: t => acks t + 1
  | _ :: t => acks t

/-! ## Auxiliary definitions for the statements -/

/-- The array after storing the bytes of `b` at `buf[i], buf[i + 1], ...`. -/
def fill : Buf → Nat → List Nat → Buf
  | buf, _, [] => buf
  | buf, i, c :: t => fill (store buf i c) (i + 1) t

/-- The number of `serial_readline` calls with a non-zero result among the
successive calls that consume the read results `serial`: the calls that `main`
answers with an acknowledge step. -/
def serial_acks : Nat → List (Option Nat) → Nat
  | 0, _ => 0
  | _ + 1, [] => 0
  | fuel + 1, e :: rest =>
    (if (serial_readline (e :: rest)).2.1 > 0 then 1 else 0)
      + serial_acks fuel (serial_readline (e :: rest)).2.2

/-- The read results for one line: `gap` timeouts, then the bytes of `body` and
the terminator `'\n'` without a timeout in between. -/
def wire_line (gap : Nat) (body : List Nat) : List (Option Nat) :=
  List.replicate gap none ++ (body ++ [10]).map some

/-- The read results for a sequence of lines, each with its leading timeouts. -/
def wire : List (Nat × List Nat) → List (Option Nat)
  | [] => []
  | p :: t => wire_line p.1 p.2 ++ wire t

/-- The command file made of the given lines, each followed by `'\n'`. -/
def file_of_lines : List (List Nat) → List Nat
  | [] => []
  | l :: t => l ++ 10 :: file_of_lines t

/-- A line with its leading and its trailing space bytes removed. -/
def trim_spec (line : List Nat) : List Nat :=
  ((line.dropWhile (fun c => c = 32)).reverse.dropWhile (fun c => c = 32)).reverse

/-- A line is a comment when its trimmed form starts with `';'`. -/
def is_comment (line : List Nat) : Bool := (trim_spec line).head? = some 59

/-- The framed commands of a file: the trimmed non-comment lines, each followed
by `'\n'`, in file order. -/
def expected_writes (lines : List (List Nat)) : List (List Nat) :=
  (lines.filter (fun l => !is_comment l)).map (fun l => trim_spec l ++ [10])

/-- The totals of the pending entries recorded at the writes, in order. -/
def tx_totals : List Ev → List Nat
  | [] => []
  | Ev.write _ pending :: t => pending.sum :: tx_totals t
  | _ :: t => tx_totals t

/-- The lengths staged, in order. -/
def staged : List Ev → List Nat
  | [] => []
  | Ev.stage length :: t => length :: staged t
  | _ :: t => staged t

/-- The record of a run in which every command is written with an empty window
and answered at once: per non-comment line a stage, the write, a read of the
3-byte result `"ok\n"` and an acknowledge step. -/
def ok_trace : List (List Nat) → List Ev
  | [] => []
  | l :: t =>
    if is_comment l then ok_trace t
    else [Ev.stage (trim_spec l).length,
          Ev.write (trim_spec l ++ [10]) [(trim_spec l).length],
          Ev.read 3, Ev.ack] ++ ok_trace t

/-- The C string that starts at offset `p` of the array: the bytes before the
first NUL.  `none`: there is no NUL before the end of the array. -/
def c_string (buf : Buf) (p : Nat) : Option (List Nat) :=
  (strlen buf (256 - p) p).map (bytes_at buf p)

/-- One pass through the body of the streaming loop (lines 191-246), with the
same statements as `stream_loop`: the status is `none` when the loop goes on with
the returned state, and `some s` when the run stops there with status `s`. -/
def stream_body (fw : List Nat → List (Option Nat)) (st : CState) : Option Status × CState :=
  let r := file_readline st.file
  let st0 := { st with file := r.2.2 }
  if r.2.1 = 0 then (some Status.done, st0)
  else
    match trim_whitespace r.1 with
    | none => (some Status.fault, st0)
    | some (buf, trimmed) =>
      if buf trimmed = 59 then (none, st0)
      else
        match strlen buf (256 - trimmed) trimmed with
        | none => (some Status.fault, st0)
        | some len =>
          let length := len % 256
          let st1 := { st0 with win := stage st0.win length,
                                trace := st0.trace ++ [Ev.stage length] }
          match throttle (st1.serial.length + 1) (sum st1.win.line_lengths) st1 with
          | (Status.done, st2) => (none, transmit fw buf trimmed length st2)
          | other => (some other.1, other.2)

/-- The effect of a recorded step on the window. -/
def apply_ev (w : Window) : Ev → Window
  | Ev.stage length => stage w length
  | Ev.ack => acknowledge w
  | Ev.read _ => w
  | Ev.write _ _ => w

/-- The window after the recorded steps `tr`, started from `w`. -/
def replay (w : Window) (tr : List Ev) : Window := tr.foldl apply_ev w

/-- The record of a polling loop whose successive `serial_readline` calls
returned `rcs`: every read, followed by an acknowledge step when its result is
non-zero. -/
def polled : List Nat → List Ev
  | [] => []
  | rc :: t => if rc > 0 then Ev.read rc :: Ev.ack :: polled t else Ev.read rc :: polled t

/-- For each write of the record, in order, the number of acknowledge steps
performed before it, counted from `n`. -/
def acks_before_writes : Nat → List Ev → List Nat
  | _, [] => []
  | n, Ev.ack :: t => acks_before_writes (n + 1) t
  | n, Ev.write _ _ :: t => n :: acks_before_writes n t
  | n, Ev.read _ :: t => acks_before_writes n t
  | n, Ev.stage _ :: t => acks_before_writes n t

/-- A well-formed window: at most 127 pending entries, each a length in 1..126,
followed by zeros up to the end of the array. -/
def WF (w : Window) : Prop :=
  w.lli ≤ 127 ∧ (∀ j, j < w.lli → 1 ≤ w.line_lengths j ∧ w.line_lengths j ≤ 126) ∧
    (∀ j, w.lli ≤ j → j < 256 → w.line_lengths j = 0)

/-- What a recorded step requires of the window `w` on which it is made: a stage
does not wrap the 8-bit count, an acknowledge step is not made on the empty
window, and at a write the window holds between 1 and 126 entries, the newest of
which is the length of the command written, and the recorded snapshot is the
pending part of `w`. -/
def StepOK (w : Window) : Ev → Prop
  | Ev.stage _ => w.lli ≠ 255
  | Ev.ack => w.lli ≠ 0
  | Ev.read _ => True
  | Ev.write payload pending =>
    1 ≤ w.lli ∧ w.lli ≤ 126 ∧ pending = w.pending ∧
      w.line_lengths (w.lli - 1) + 1 = payload.length

/-- Every step of the record `tr`, started on the window `w`, is made on a
well-formed window that allows it, and the window at the end is well-formed. -/
def Safe : Window → List Ev → Prop
  | w, [] => WF w
  | w, e :: t => WF w ∧ StepOK w e ∧ Safe (apply_ev w e) t

/-- The snapshots of the pending entries recorded at the writes, in order. -/
def tx_pending : List Ev → List (List Nat)
  | [] => []
  | Ev.write _ pending :: t => pending :: tx_pending t
  | _ :: t => tx_pending t

/-- The number of recorded reads with a non-zero result. -/
def reads_nonzero : List Ev → Nat
  | [] => 0
  | Ev.read rc :: t => (if rc > 0 then 1 else 0) + reads_nonzero t
  | _ :: t => reads_nonzero t

/-- The bookkeeping between a state `st` of a run and a later state `st1`, for a
firmware that sends nothing beyond the given read results: no read result was
put back, every acknowledge step made in between answers one non-zero
`serial_readline` result, and the acknowledge steps made plus the non-zero
results that the unread rest will still give (counted with fuel `F`) stay the
same. -/
def AckBalance (F : Nat) (st st1 : CState) : Prop :=
  st1.serial.length ≤ st.serial.length ∧
    acks st1.trace + serial_acks F st1.serial = acks st.trace + serial_acks F st.serial ∧
    acks st1.trace + reads_nonzero st.trace = acks st.trace + reads_nonzero st1.trace

/-! ## Facts about the window -/

theorem sum_loop_eq (a : Buf) (n : Nat) (hn : n ≤ 255)
    (hpos : ∀ j, j < n → 0 < a j ∧ a j < 256)
    (hzero : ∀ j, n ≤ j → j < 256 → a j = 0) :
    ∀ left i s, i + left = 255 → i ≤ n → s ≤ 255 * i →
      sum_loop a left i s = s + ∑ j ∈ Finset.Ico i n, a j := by
  intro left
  induction left with
  | zero =>
    intro i s hi hin _
    have : i = n := by omega
    subst this
    simp [sum_loop]
  | succ left ih =>
    intro i s hi hin hs
    by_cases h0 : a i = 0
    · have : i = n := by
        by_contra hne
        have := (hpos i (by omega)).1
        omega
      subst this
      simp [sum_loop, h0]
    · have hlt : i < n := by
        by_contra hge
        exact h0 (hzero i (by omega) (by omega))
      have hb := (hpos i hlt).2
      have hmod : (s + a i) % 65536 = s + a i := Nat.mod_eq_of_lt (by omega)
      rw [sum_loop, if_neg h0, hmod, ih (i + 1) (s + a i) (by omega) (by omega) (by omega),
        Finset.sum_eq_sum_Ico_succ_bot hlt]
      omega

theorem sum_range_le (a : Buf) (n : Nat) (hb : ∀ j, j < n → a j < 256) :
    ∑ j ∈ Finset.range n, a j ≤ 255 * n := by
  induction n with
  | zero => simp
  | succ n ih =>
    rw [Finset.sum_range_succ]
    have := hb n (by omega)
    have := ih (fun j hj => hb j (by omega))
    omega

theorem acknowledge_iterate_clear :
    ∀ (m : Nat) (w : Window), w.lli = m → m ≤ 255 →
      (∀ j, m ≤ j → j < 256 → w.line_lengths j = 0) →
      (acknowledge^[m] w).lli = 0 ∧ ∀ j, j < 256 → (acknowledge^[m] w).line_lengths j = 0 := by
  intro m
  induction m with
  | zero =>
    intro w hl _ hz
    exact ⟨by simpa using hl, fun j hj => by simpa using hz j (Nat.zero_le _) hj⟩
  | succ m ih =>
    intro w hl hm hz
    rw [Function.iterate_succ_apply]
    apply ih (acknowledge w)
    · simp only [acknowledge, hl]; omega
    · omega
    · intro j hj1 hj2
      simp only [acknowledge, memmove_down, hl]
      split
      · exact hz (j + 1) (by omega) (by omega)
      · exact hz j (by omega) hj2

theorem stage_foldl_shape :
    ∀ (lens : List Nat) (w : Window), w.lli + lens.length ≤ 255 →
      (lens.foldl stage w).lli = w.lli + lens.length ∧
      (∀ j, w.lli + lens.length ≤ j →
        (lens.foldl stage w).line_lengths j = w.line_lengths j) := by
  intro lens
  induction lens with
  | nil => intro w _; simp
  | cons l t ih =>
    intro w h
    simp only [List.length_cons] at h
    have hs : (stage w l).lli = w.lli + 1 := by
      simp only [stage]; omega
    have := ih (stage w l) (by rw [hs]; omega)
    rw [hs] at this
    refine ⟨by simp only [List.foldl_cons, List.length_cons]; omega, ?_⟩
    intro j hj
    simp only [List.length_cons] at hj
    rw [List.foldl_cons, this.2 j (by omega)]
    simp only [stage, store]
    rw [if_neg (by omega)]

/-! ## Claims -/

/-- C4 (as stated, refuted): acknowledging the empty window does not leave the
pending count at 0; the 8-bit `lli--` wraps it to 255. -/
theorem acknowledge_empty_count_wraps :
    Window.init.lli = 0 ∧ (acknowledge Window.init).lli = 255 ∧
      (acknowledge Window.init).lli ≠ Window.init.lli := by
  decide

/-- C4 (amended): on a window with `lli == 0` the acknowledge step leaves every
entry of `line_lengths` unchanged, and the 8-bit count wraps from 0 to 255. -/
theorem acknowledge_empty_entries_kept (w : Window) (h : w.lli = 0) :
    (acknowledge w).line_lengths = w.line_lengths ∧ (acknowledge w).lli = 255 := by
  constructor
  · funext j
    simp [acknowledge, memmove_down, h]
  · simp [acknowledge, h]

theorem acknowledge_empty_entries_kept_witness :
    Window.init.lli = 0 ∧
      (acknowledge Window.init).line_lengths = Window.init.line_lengths ∧
      (acknowledge Window.init).lli = 255 :=
  ⟨rfl, acknowledge_empty_entries_kept Window.init rfl⟩

/-- C5: on a window of `N` positive entries (1 ≤ N ≤ 255) followed by zeros, one
acknowledge step drops slot 0, moves the other `N - 1` entries down by one slot in
the same order, leaves the later slots zero and sets the count to `N - 1`; and
staging `N` positive lengths on the initial window followed by `N` acknowledge
steps gives back the empty window. -/
theorem acknowledge_fifo (w : Window) (lens : List Nat)
    (h1 : 1 ≤ w.lli) (h255 : w.lli ≤ 255)
    (hpos : ∀ j, j < w.lli → 0 < w.line_lengths j)
    (hzero : ∀ j, w.lli ≤ j → j < 256 → w.line_lengths j = 0)
    (hN255 : lens.length ≤ 255) :
    ((acknowledge w).lli = w.lli - 1 ∧
      (∀ j, j < w.lli - 1 → (acknowledge w).line_lengths j = w.line_lengths (j + 1)) ∧
      (∀ j, j < w.lli - 1 → 0 < (acknowledge w).line_lengths j) ∧
      (∀ j, w.lli - 1 ≤ j → j < 256 → (acknowledge w).line_lengths j = 0)) ∧
    ((lens.foldl stage Window.init).lli = lens.length ∧
      (acknowledge^[lens.length] (lens.foldl stage Window.init)).lli = 0 ∧
      (∀ j, j < 256 →
        (acknowledge^[lens.length] (lens.foldl stage Window.init)).line_lengths j = 0)) := by
  refine ⟨⟨?_, ?_, ?_, ?_⟩, ?_⟩
  · simp only [acknowledge]; omega
  · intro j hj
    simp only [acknowledge, memmove_down]
    rw [if_pos (by omega)]
  · intro j hj
    simp only [acknowledge, memmove_down]
    rw [if_pos (by omega)]
    exact hpos (j + 1) (by omega)
  · intro j hj1 hj2
    simp only [acknowledge, memmove_down]
    split
    · exact hzero (j + 1) (by omega) (by omega)
    · exact hzero j (by omega) hj2
  · have hs := stage_foldl_shape lens Window.init (by simp [Window.init]; omega)
    have hl : (lens.foldl stage Window.init).lli = lens.length := by
      simpa [Window.init] using hs.1
    refine ⟨hl, ?_⟩
    apply acknowledge_iterate_clear lens.length _ hl hN255
    intro j hj _
    rw [hs.2 j (by simpa [Window.init] using hj)]
    rfl

theorem acknowledge_fifo_witness :
    (acknowledge (stage (stage Window.init 5) 7)).line_lengths 0 = 7 ∧
      (acknowledge^[2] ([5, 7].foldl stage Window.init)).lli = 0 := by
  have h := acknowledge_fifo (stage (stage Window.init 5) 7) [5, 7]
    (by decide) (by decide) (by decide)
    (by
      intro j h1 h2
      change 2 ≤ j at h1
      simp only [stage, store, Window.init, zeroed]
      rw [if_neg (by omega), if_neg (by omega)])
    (by decide)
  exact ⟨by rw [h.1.2.1 0 (by decide)]; decide, h.2.2.1⟩

/-- C6: on a window of `n` positive byte entries (n ≤ 255) followed by zeros,
`sum` returns the arithmetic sum of the `n` entries, which is at most
255 * 255 = 65025 so that the 16-bit accumulator never wraps; on the empty
window it returns 0. -/
theorem sum_eq_total (a : Buf) (n : Nat) (hn : n ≤ 255)
    (hpos : ∀ j, j < n → 0 < a j ∧ a j < 256)
    (hzero : ∀ j, n ≤ j → j < 256 → a j = 0) :
    sum a = ∑ j ∈ Finset.range n, a j ∧ sum a ≤ 65025 ∧ (n = 0 → sum a = 0) := by
  have h : sum a = ∑ j ∈ Finset.range n, a j := by
    rw [sum, sum_loop_eq a n hn hpos hzero 255 0 0 (by omega) (by omega) (by omega),
      Finset.range_eq_Ico]
    simp
  have hb := sum_range_le a n (fun j hj => (hpos j hj).2)
  refine ⟨h, by rw [h]; omega, ?_⟩
  intro h0
  subst h0
  simpa using h

theorem sum_eq_total_witness :
    sum (store (store zeroed 0 100) 1 26) = 126 ∧ sum zeroed = 0 := by
  have h := sum_eq_total (store (store zeroed 0 100) 1 26) 2 (by decide) (by decide)
    (by
      intro j h1 h2
      simp only [store, zeroed]
      rw [if_neg (by omega), if_neg (by omega)])
  have h0 := sum_eq_total zeroed 0 (by decide) (by decide) (by intro j _ _; rfl)
  exact ⟨by rw [h.1]; decide, h0.2.2 rfl⟩

/-! ## Facts about `serial_readline` -/

theorem fill_apply : ∀ (b : List Nat) (buf : Buf) (i j : Nat),
    fill buf i b j = if i ≤ j ∧ j < i + b.length then b.getD (j - i) 0 else buf j := by
  intro b
  induction b with
  | nil =>
    intro buf i j
    rw [if_neg (by simp only [List.length_nil]; omega)]
    rfl
  | cons c t ih =>
    intro buf i j
    rw [fill, ih]
    by_cases h1 : i + 1 ≤ j ∧ j < i + 1 + t.length
    · rw [if_pos h1, if_pos (by simp only [List.length_cons]; omega)]
      obtain ⟨k, hk⟩ : ∃ k, j - i = k + 1 := ⟨j - i - 1, by omega⟩
      rw [hk, List.getD_cons_succ]
      congr 1
      omega
    · rw [if_neg h1]
      by_cases h2 : j = i
      · subst h2
        simp [store]
      · rw [if_neg (by simp only [List.length_cons]; omega)]
        simp [store, h2]

theorem serial_loop_body : ∀ (b : List Nat) (buf : Buf) (i : Nat) (rest : List (Option Nat)),
    (∀ c ∈ b, c ≠ 10 ∧ c ≠ 13) → i < 256 → i + b.length ≤ 256 →
    serial_readline_loop (b.map some ++ rest) buf i
      = serial_readline_loop rest (fill buf i b) ((i + b.length) % 256) := by
  intro b
  induction b with
  | nil =>
    intro buf i rest _ hi _
    simp only [List.map_nil, List.nil_append, List.length_nil, Nat.add_zero, fill]
    rw [Nat.mod_eq_of_lt hi]
  | cons c t ih =>
    intro buf i rest hb hi hlen
    have hc := hb c (List.mem_cons_self c t)
    simp only [List.length_cons] at hlen
    rw [List.map_cons, List.cons_append, serial_readline_loop, if_neg hc.2, if_neg hc.1, fill]
    cases t with
    | nil =>
      rfl
    | cons d u =>
      simp only [List.length_cons] at hlen
      have h1 : (i + 1) % 256 = i + 1 := Nat.mod_eq_of_lt (by omega)
      rw [h1, ih (store buf i c) (i + 1) rest
        (fun x hx => hb x (List.mem_cons_of_mem c hx)) (by omega)
        (by simp only [List.length_cons]; omega)]
      congr 2
      simp only [List.length_cons]
      omega

/-- The result of `serial_readline` on a line body without CR and LF of at most
255 bytes that is followed by `'\n'`. -/
theorem serial_readline_lf (b : List Nat) (rest : List (Option Nat))
    (hb : ∀ c ∈ b, c ≠ 10 ∧ c ≠ 13) (hlen : b.length ≤ 255) :
    serial_readline ((b ++ [10]).map some ++ rest)
      = (store (store (fill zeroed 0 b) b.length 10) b.length 0, (b.length + 1) % 256, rest) := by
  have h := serial_loop_body b zeroed 0 (some 10 :: rest) hb (by omega) (by omega)
  rw [Nat.zero_add, Nat.mod_eq_of_lt (by omega : b.length < 256)] at h
  simp only [serial_readline, List.map_append, List.map_cons, List.map_nil, List.append_assoc,
    List.singleton_append]
  rw [h]
  simp [serial_readline_loop]

/-- The result of `serial_readline` on the same body followed by `"\r\n"`. -/
theorem serial_readline_crlf (b : List Nat) (rest : List (Option Nat))
    (hb : ∀ c ∈ b, c ≠ 10 ∧ c ≠ 13) (hlen : b.length ≤ 255) :
    serial_readline ((b ++ [13, 10]).map some ++ rest)
      = (store (store (store (fill zeroed 0 b) b.length 13) b.length 10) b.length 0,
          (b.length + 1) % 256, rest) := by
  have h := serial_loop_body b zeroed 0 (some 13 :: some 10 :: rest) hb (by omega) (by omega)
  rw [Nat.zero_add, Nat.mod_eq_of_lt (by omega : b.length < 256)] at h
  simp only [serial_readline, List.map_append, List.map_cons, List.map_nil, List.append_assoc,
    List.cons_append, List.nil_append]
  rw [h]
  simp [serial_readline_loop]

theorem line_buffer_apply (b : List Nat) (buf : Buf) (j : Nat)
    (h : ∀ k, k ≠ b.length → buf k = fill zeroed 0 b k) (h0 : buf b.length = 0) :
    buf j = b.getD j 0 := by
  by_cases hj : j = b.length
  · subst hj
    rw [h0, List.getD_eq_default _ _ (Nat.le_refl _)]
  · rw [h j hj, fill_apply]
    by_cases hlt : j < b.length
    · rw [if_pos ⟨Nat.zero_le _, by omega⟩, Nat.sub_zero]
    · rw [if_neg (by omega), List.getD_eq_default _ _ (by omega)]
      rfl

/-- C9 (as stated, refuted): on `"ok\n"` and on `"ok\r\n"` the return value is 3,
not the number 2 of bytes of the body `"ok"`: the terminator is counted. -/
theorem serial_readline_ok_returns_three :
    (serial_readline [some 111, some 107, some 10]).2.1 = 3 ∧
      (serial_readline [some 111, some 107, some 13, some 10]).2.1 = 3 ∧
      (serial_readline [some 111, some 107, some 10]).2.1 ≠ [111, 107].length := by
  decide

/-- C9 (amended): for a line body `b` of at most 255 bytes without CR and LF,
`serial_readline` on `b` followed by `"\n"` or by `"\r\n"` leaves the bytes of `b`
followed by NUL (and zeros up to the end) in the buffer, consumes the line, and
returns the number of bytes of `b` plus one for the terminator, modulo 256; the
carriage return is not counted. -/
theorem serial_readline_line (b : List Nat) (rest : List (Option Nat))
    (hb : ∀ c ∈ b, c ≠ 10 ∧ c ≠ 13) (hlen : b.length ≤ 255) :
    ((∀ j, (serial_readline ((b ++ [10]).map some ++ rest)).1 j = b.getD j 0) ∧
      (serial_readline ((b ++ [10]).map some ++ rest)).2.1 = (b.length + 1) % 256 ∧
      (serial_readline ((b ++ [10]).map some ++ rest)).2.2 = rest) ∧
    ((∀ j, (serial_readline ((b ++ [13, 10]).map some ++ rest)).1 j = b.getD j 0) ∧
      (serial_readline ((b ++ [13, 10]).map some ++ rest)).2.1 = (b.length + 1) % 256 ∧
      (serial_readline ((b ++ [13, 10]).map some ++ rest)).2.2 = rest) := by
  rw [serial_readline_lf b rest hb hlen, serial_readline_crlf b rest hb hlen]
  refine ⟨⟨fun j => ?_, rfl, rfl⟩, ⟨fun j => ?_, rfl, rfl⟩⟩
  · apply line_buffer_apply
    · intro k hk
      simp [store, hk]
    · simp [store]
  · apply line_buffer_apply
    · intro k hk
      simp [store, hk]
    · simp [store]

theorem serial_readline_line_witness :
    (serial_readline [some 111, some 107, some 10]).1 0 = 111 ∧
      (serial_readline [some 111, some 107, some 10]).2.1 = 3 :=
  have h := serial_readline_line [111, 107] [] (by decide) (by decide)
  ⟨h.1.1 0, h.1.2.1⟩

/-- C10: for a line body `b` of at most 255 bytes without CR and LF,
`serial_readline` leaves the same buffer and returns the same value on
`b + "\r\n"` as on `b + "\n"`. -/
theorem serial_readline_cr_insensitive (b : List Nat)
    (hb : ∀ c ∈ b, c ≠ 10 ∧ c ≠ 13) (hlen : b.length ≤ 255) :
    (serial_readline ((b ++ [13, 10]).map some)).1 = (serial_readline ((b ++ [10]).map some)).1 ∧
      (serial_readline ((b ++ [13, 10]).map some)).2.1
        = (serial_readline ((b ++ [10]).map some)).2.1 := by
  have h1 := serial_readline_lf b [] hb hlen
  have h2 := serial_readline_crlf b [] hb hlen
  rw [List.append_nil] at h1 h2
  rw [h1, h2]
  refine ⟨?_, rfl⟩
  funext j
  simp only [store]
  split <;> rfl

theorem serial_readline_cr_insensitive_witness :
    (serial_readline [some 111, some 107, some 13, some 10]).1
        = (serial_readline [some 111, some 107, some 10]).1 ∧
      (serial_readline [some 111, some 107, some 13, some 10]).2.1
        = (serial_readline [some 111, some 107, some 10]).2.1 :=
  serial_readline_cr_insensitive [111, 107] (by decide) (by decide)

theorem serial_loop_line_pos : ∀ (b : List Nat) (buf : Buf) (i : Nat) (rest : List (Option Nat)),
    (∀ c ∈ b, c ≠ 10) → i + b.length ≤ 254 →
    ∃ buf1 n, serial_readline_loop (b.map some ++ some 10 :: rest) buf i = (buf1, n, rest)
      ∧ 0 < n := by
  intro b
  induction b with
  | nil =>
    intro buf i rest _ hi
    simp only [List.length_nil, Nat.add_zero] at hi
    refine ⟨store (store buf i 10) i 0, (i + 1) % 256, ?_, ?_⟩
    · simp [serial_readline_loop]
    · rw [Nat.mod_eq_of_lt (by omega)]
      omega
  | cons c t ih =>
    intro buf i rest hb hi
    simp only [List.length_cons] at hi
    have hc := hb c (List.mem_cons_self c t)
    have ht : ∀ x ∈ t, x ≠ 10 := fun x hx => hb x (List.mem_cons_of_mem c hx)
    rw [List.map_cons, List.cons_append, serial_readline_loop]
    by_cases h13 : c = 13
    · rw [if_pos h13]
      exact ih (store buf i c) i rest ht (by omega)
    · rw [if_neg h13, if_neg hc, Nat.mod_eq_of_lt (by omega : i + 1 < 256)]
      exact ih (store buf i c) (i + 1) rest ht (by omega)

theorem serial_acks_nil (fuel : Nat) : serial_acks fuel [] = 0 := by
  cases fuel <;> rfl

theorem serial_acks_timeouts : ∀ (g fuel : Nat) (rest : List (Option Nat)), g ≤ fuel →
    serial_acks fuel (List.replicate g none ++ rest) = serial_acks (fuel - g) rest := by
  intro g
  induction g with
  | zero => intro fuel rest _; simp
  | succ g ih =>
    intro fuel rest h
    obtain ⟨f, rfl⟩ : ∃ f, fuel = f + 1 := ⟨fuel - 1, by omega⟩
    rw [List.replicate_succ, List.cons_append, serial_acks]
    simp only [serial_readline, serial_readline_loop]
    rw [ih f rest (by omega)]
    simp

theorem serial_acks_line (b : List Nat) (fuel : Nat) (rest : List (Option Nat))
    (hb : ∀ c ∈ b, c ≠ 10) (hlen : b.length ≤ 254) (hf : 1 ≤ fuel) :
    serial_acks fuel ((b ++ [10]).map some ++ rest) = 1 + serial_acks (fuel - 1) rest := by
  obtain ⟨f, rfl⟩ : ∃ f, fuel = f + 1 := ⟨fuel - 1, by omega⟩
  obtain ⟨buf1, n, hrun, hn⟩ := serial_loop_line_pos b zeroed 0 rest hb (by omega)
  have hev : (b ++ [10]).map some ++ rest = b.map some ++ some 10 :: rest := by simp
  rw [hev]
  have hne : ∃ e l, b.map some ++ some 10 :: rest = e :: l := by
    cases b with
    | nil => exact ⟨_, _, rfl⟩
    | cons c t => exact ⟨_, _, rfl⟩
  obtain ⟨e, l, hel⟩ := hne
  have hrun1 : serial_readline (e :: l) = (buf1, n, rest) := by
    rw [← hel]
    exact hrun
  rw [hel, serial_acks, hrun1]
  simp [hn]

theorem wire_acks : ∀ (lines : List (Nat × List Nat)) (tail fuel : Nat),
    (∀ p ∈ lines, (∀ c ∈ p.2, c ≠ 10) ∧ p.2.length ≤ 254) →
    (wire lines ++ List.replicate tail none).length ≤ fuel →
    serial_acks fuel (wire lines ++ List.replicate tail none) = lines.length := by
  intro lines
  induction lines with
  | nil =>
    intro tail fuel _ hf
    simp only [wire, List.nil_append, List.length_replicate] at hf
    have := serial_acks_timeouts tail fuel [] hf
    rw [List.append_nil] at this
    simp [wire, this, serial_acks_nil]
  | cons p t ih =>
    intro tail fuel hp hf
    have hp1 := hp p (List.mem_cons_self p t)
    simp only [wire, wire_line, List.length_append, List.length_replicate, List.length_map,
      List.length_cons, List.length_nil] at hf
    have hf2 : (wire t ++ List.replicate tail none).length ≤ fuel - p.1 - 1 := by
      simp only [List.length_append, List.length_replicate]
      omega
    rw [wire, wire_line, List.append_assoc, List.append_assoc,
      serial_acks_timeouts p.1 fuel _ (by omega),
      serial_acks_line p.2 (fuel - p.1) _ hp1.1 hp1.2 (by omega),
      ih tail (fuel - p.1 - 1) (fun q hq => hp q (List.mem_cons_of_mem p hq)) hf2]
    simp only [List.length_cons]
    omega

set_option maxRecDepth 20000 in
/-- C8 (as stated, refuted): the single line `"ok\n"` with one read timeout after
its first byte gives two non-zero results, and a single line of 255 bytes gives
none. -/
theorem serial_acks_not_one_per_line :
    serial_acks 4 [some 111, none, some 107, some 10] = 2 ∧
      serial_acks 256 ((List.replicate 255 65 ++ [10]).map some) = 0 := by
  decide

/-! ## Facts about `file_readline` and `trim_whitespace` -/

theorem fill_append : ∀ (x y : List Nat) (buf : Buf) (i : Nat),
    fill buf i (x ++ y) = fill (fill buf i x) (i + x.length) y := by
  intro x
  induction x with
  | nil => intro y buf i; rfl
  | cons c t ih =>
    intro y buf i
    have h : i + 1 + t.length = i + (t.length + 1) := by omega
    rw [List.cons_append, fill, ih, fill, List.length_cons, h]

theorem file_loop_body : ∀ (b : List Nat) (buf : Buf) (i : Nat) (rest : List Nat),
    (∀ c ∈ b, c ≠ 10) → i + b.length ≤ 255 →
    file_readline_loop (b ++ 10 :: rest) buf i = (fill buf i b, i + b.length, rest) := by
  intro b
  induction b with
  | nil =>
    intro buf i rest _ _
    simp [file_readline_loop, fill]
  | cons c t ih =>
    intro buf i rest hb hlen
    simp only [List.length_cons] at hlen
    have hc := hb c (List.mem_cons_self c t)
    rw [List.cons_append, file_readline_loop, if_neg hc,
      Nat.mod_eq_of_lt (by omega : i + 1 < 256),
      ih (store buf i c) (i + 1) rest (fun x hx => hb x (List.mem_cons_of_mem c hx)) (by omega),
      fill, List.length_cons]
    congr 2
    omega

theorem file_readline_line (l rest : List Nat) (hl : ∀ c ∈ l, c ≠ 10) (hlen : l.length ≤ 255) :
    file_readline (l ++ 10 :: rest) = (fill zeroed 0 l, l.length, rest) := by
  rw [file_readline, file_loop_body l zeroed 0 rest hl (by omega), Nat.zero_add]

theorem skip_spaces_run (buf : Buf) : ∀ (left p q : Nat), p ≤ q → q < p + left →
    (∀ j, p ≤ j → j < q → buf j = 32) → buf q ≠ 32 → skip_spaces buf left p = some q := by
  intro left
  induction left with
  | zero => intro p q h1 h2; omega
  | succ left ih =>
    intro p q h1 h2 hsp hq
    rw [skip_spaces]
    by_cases hpq : p = q
    · subst hpq
      rw [if_neg hq]
    · rw [if_pos (hsp p (Nat.le_refl _) (by omega))]
      exact ih (p + 1) q (by omega) (by omega) (fun j hj1 hj2 => hsp j (by omega) hj2) hq

theorem strlen_run (buf : Buf) : ∀ (left p q : Nat), p ≤ q → q < p + left →
    (∀ j, p ≤ j → j < q → buf j ≠ 0) → buf q = 0 → strlen buf left p = some (q - p) := by
  intro left
  induction left with
  | zero => intro p q h1 h2; omega
  | succ left ih =>
    intro p q h1 h2 hnz hq
    rw [strlen]
    by_cases hpq : p = q
    · subst hpq
      rw [if_pos hq, Nat.sub_self]
    · rw [if_neg (hnz p (Nat.le_refl _) (by omega)),
        ih (p + 1) q (by omega) (by omega) (fun j hj1 hj2 => hnz j (by omega) hj2) hq]
      simp only [Option.map_some']
      congr 1
      omega

theorem back_spaces_run (buf : Buf) (str : Nat) : ∀ (e0 e : Nat), e ≤ e0 →
    (∀ j, e < j → j ≤ e0 → str < j ∧ buf j = 32) → ¬ (e > str ∧ buf e = 32) →
    back_spaces buf str e0 = e := by
  intro e0
  induction e0 with
  | zero =>
    intro e h _ _
    have : e = 0 := by omega
    subst this
    rfl
  | succ k ih =>
    intro e h hsp hstop
    rw [back_spaces]
    by_cases hek : e = k + 1
    · subst hek
      rw [if_neg hstop]
    · rw [if_pos (hsp (k + 1) (by omega) (Nat.le_refl _))]
      exact ih e (by omega) (fun j hj1 hj2 => hsp j hj1 (by omega)) hstop

/-! ## `trim_whitespace` on the buffer of a text line -/

theorem fill_zeroed_apply (l : List Nat) (j : Nat) : fill zeroed 0 l j = l.getD j 0 := by
  rw [fill_apply]
  by_cases h : j < l.length
  · rw [if_pos ⟨Nat.zero_le _, by omega⟩, Nat.sub_zero]
  · rw [if_neg (by omega), List.getD_eq_default _ _ (by omega)]
    rfl

theorem bytes_at_succ (buf : Buf) (p n : Nat) :
    bytes_at buf p (n + 1) = bytes_at buf p n ++ [buf (p + n)] := by
  simp [bytes_at, List.range_succ]

theorem bytes_at_eq (buf : Buf) (p : Nat) (m : List Nat)
    (h : ∀ k, k < m.length → buf (p + k) = m.getD k 0) : bytes_at buf p m.length = m := by
  apply List.ext_getElem
  · simp [bytes_at]
  · intro k h1 h2
    simp only [bytes_at, List.getElem_map, List.getElem_range]
    rw [h k h2, List.getD_eq_getElem _ _ h2]

theorem trim_whitespace_run (buf : Buf) (a e n : Nat) (hae : a ≤ e) (hen : e < n)
    (hn : n ≤ 255) (hlead : ∀ j, j < a → buf j = 32) (hfirst : buf a ≠ 32)
    (hnz : ∀ j, a ≤ j → j < n → buf j ≠ 0) (hend : buf n = 0)
    (htrail : ∀ j, e < j → j < n → buf j = 32) (hlast : buf e ≠ 32) :
    trim_whitespace buf = some (store buf (e + 1) 0, a) := by
  have h1 : skip_spaces buf 256 0 = some a :=
    skip_spaces_run buf 256 0 a (Nat.zero_le _) (by omega) (fun j _ hj => hlead j hj) hfirst
  have h2 : strlen buf (256 - a) a = some (n - a) :=
    strlen_run buf (256 - a) a n (by omega) (by omega) hnz hend
  have h3 : back_spaces buf a (a + (n - a) - 1) = e :=
    back_spaces_run buf a (a + (n - a) - 1) e (by omega)
      (fun j hj1 hj2 => ⟨by omega, htrail j hj1 (by omega)⟩) (fun h => hlast h.2)
  simp only [trim_whitespace, h1, h2, h3, if_neg (hnz a (Nat.le_refl _) (by omega))]

theorem trim_whitespace_blank (buf : Buf) (a : Nat) (ha : a ≤ 255)
    (hlead : ∀ j, j < a → buf j = 32) (hend : buf a = 0) :
    trim_whitespace buf = some (buf, a) := by
  have h1 : skip_spaces buf 256 0 = some a :=
    skip_spaces_run buf 256 0 a (Nat.zero_le _) (by omega) (fun j _ hj => hlead j hj)
      (by rw [hend]; decide)
  simp only [trim_whitespace, h1, hend, if_true]

/-! ## The shape of a line: spaces, trimmed form, spaces -/

theorem takeWhile_space_eq (l : List Nat) :
    l.takeWhile (fun c => c = 32) = List.replicate (l.takeWhile (fun c => c = 32)).length 32 := by
  apply List.eq_replicate_of_mem
  intro x hx
  simpa using List.mem_takeWhile_imp hx

theorem head_dropWhile_space (l : List Nat) :
    (l.dropWhile (fun c => c = 32)).head? ≠ some 32 := by
  have h := List.head?_dropWhile_not (fun c : Nat => decide (c = 32)) l
  intro hc
  rw [hc] at h
  simp at h

theorem trim_spec_shape (l : List Nat) :
    ∃ a b, l = List.replicate a 32 ++ (trim_spec l ++ List.replicate b 32) ∧
      (trim_spec l).head? ≠ some 32 ∧ (trim_spec l).getLast? ≠ some 32 := by
  let d := l.dropWhile (fun c => c = 32)
  have hd : l = l.takeWhile (fun c => c = 32) ++ d :=
    (List.takeWhile_append_dropWhile _ l).symm
  have hm : d = trim_spec l ++ (d.reverse.takeWhile (fun c => c = 32)).reverse := by
    have := List.takeWhile_append_dropWhile (fun c : Nat => decide (c = 32)) d.reverse
    have h2 := congrArg List.reverse this
    rw [List.reverse_append, List.reverse_reverse] at h2
    exact h2.symm
  refine ⟨(l.takeWhile (fun c => c = 32)).length,
    (d.reverse.takeWhile (fun c => c = 32)).length, ?_, ?_, ?_⟩
  · have ht : (d.reverse.takeWhile (fun c => c = 32)).reverse
        = List.replicate (d.reverse.takeWhile (fun c => c = 32)).length 32 := by
      rw [takeWhile_space_eq d.reverse]
      simp
    rw [← ht, ← hm, ← takeWhile_space_eq]
    exact hd
  · intro hh
    have hne : trim_spec l ≠ [] := by
      intro h0
      rw [h0] at hh
      simp at hh
    have : d.head? = some 32 := by
      rw [hm, List.head?_append_of_ne_nil _ hne]
      exact hh
    exact head_dropWhile_space l this
  · intro hh
    have : (d.reverse.dropWhile (fun c => c = 32)).head? = some 32 := by
      rw [← List.getLast?_reverse]
      exact hh
    exact head_dropWhile_space d.reverse this

/-! ## What one text line becomes: trimmed command, length, payload -/

theorem getD_replicate_lt (a j x d : Nat) (h : j < a) : (List.replicate a x).getD j d = x := by
  rw [List.getD_eq_getElem _ _ (by simpa using h)]
  simp

theorem shape_lead (a b j : Nat) (m : List Nat) (h : j < a) :
    (List.replicate a 32 ++ (m ++ List.replicate b 32)).getD j 0 = 32 := by
  rw [List.getD_append _ _ _ _ (by simpa using h), getD_replicate_lt a j 32 0 h]

theorem shape_mid (a b k : Nat) (m : List Nat) (h : k < m.length) :
    (List.replicate a 32 ++ (m ++ List.replicate b 32)).getD (a + k) 0 = m.getD k 0 := by
  rw [List.getD_append_right _ _ _ _ (by simp), List.length_replicate, Nat.add_sub_cancel_left,
    List.getD_append _ _ _ _ h]

theorem shape_trail (a b j : Nat) (m : List Nat) (h1 : a + m.length ≤ j)
    (h2 : j < a + m.length + b) :
    (List.replicate a 32 ++ (m ++ List.replicate b 32)).getD j 0 = 32 := by
  rw [List.getD_append_right _ _ _ _ (by simp; omega), List.length_replicate,
    List.getD_append_right _ _ _ _ (by omega), getD_replicate_lt b _ 32 0 (by omega)]

theorem getD_ne_zero (l : List Nat) (h : ∀ c ∈ l, c ≠ 0) (j : Nat) (hj : j < l.length) :
    l.getD j 0 ≠ 0 := by
  rw [List.getD_eq_getElem _ _ hj]
  exact h _ (List.getElem_mem hj)

theorem getD_zero_of_head (m : List Nat) (x : Nat) (hne : m ≠ []) :
    m.head? = some x ↔ m.getD 0 0 = x := by
  cases m with
  | nil => exact absurd rfl hne
  | cons c t => simp

theorem getD_last_of_getLast (m : List Nat) (x : Nat) (hne : m ≠ []) :
    m.getLast? = some x ↔ m.getD (m.length - 1) 0 = x := by
  have hlen : m.length - 1 < m.length := by
    have := List.length_pos.mpr hne
    omega
  rw [List.getLast?_eq_getElem?, List.getD_eq_getElem _ _ hlen, List.getElem?_eq_getElem hlen]
  simp

theorem trim_line_result (l : List Nat) (hl : ∀ c ∈ l, c ≠ 0) (hlen : l.length ≤ 255) :
    ∃ buf a, trim_whitespace (fill zeroed 0 l) = some (buf, a) ∧
      strlen buf (256 - a) a = some (trim_spec l).length ∧
      (buf a = 59 ↔ is_comment l = true) ∧
      bytes_at (store buf (a + (trim_spec l).length) 10) a ((trim_spec l).length + 1)
        = trim_spec l ++ [10] := by
  obtain ⟨a, b, hshape, hhead, hlast⟩ := trim_spec_shape l
  have hB : ∀ j, fill zeroed 0 l j = l.getD j 0 := fill_zeroed_apply l
  have hn : l.length = a + (trim_spec l).length + b := by
    conv_lhs => rw [hshape]
    simp only [List.length_append, List.length_replicate]
    omega
  have hcom : is_comment l = true ↔ (trim_spec l).head? = some 59 := by
    simp [is_comment]
  generalize hm : trim_spec l = m at hshape hhead hlast hn hcom
  have h1 : ∀ j, j < a → fill zeroed 0 l j = 32 := fun j hj => by
    rw [hB, hshape, shape_lead a b j m hj]
  have h2 : ∀ k, k < m.length → fill zeroed 0 l (a + k) = m.getD k 0 := fun k hk => by
    rw [hB, hshape, shape_mid a b k m hk]
  have h3 : ∀ j, a + m.length ≤ j → j < l.length → fill zeroed 0 l j = 32 := fun j hj1 hj2 => by
    rw [hB, hshape, shape_trail a b j m hj1 (by omega)]
  have h4 : fill zeroed 0 l l.length = 0 := by
    rw [hB, List.getD_eq_default _ _ (Nat.le_refl _)]
  have h5 : ∀ j, j < l.length → fill zeroed 0 l j ≠ 0 := fun j hj => by
    rw [hB]
    exact getD_ne_zero l hl j hj
  by_cases hnil : m = []
  · subst hnil
    simp only [List.length_nil, Nat.add_zero] at hn h3
    refine ⟨fill zeroed 0 l, l.length, ?_, ?_, ?_, ?_⟩
    · apply trim_whitespace_blank _ _ hlen _ h4
      intro j hj
      by_cases hja : j < a
      · exact h1 j hja
      · exact h3 j (by omega) hj
    · simpa using strlen_run (fill zeroed 0 l) (256 - l.length) l.length l.length
        (Nat.le_refl _) (by omega) (fun j hj1 hj2 => by omega) h4
    · rw [h4, hcom]
      simp
    · simp [bytes_at, store, List.range_succ]
  · have hpos : 0 < m.length := List.length_pos.mpr hnil
    have hfirst : fill zeroed 0 l a ≠ 32 := by
      have := h2 0 hpos
      rw [Nat.add_zero] at this
      rw [this]
      exact fun h => hhead ((getD_zero_of_head m 32 hnil).mpr h)
    have hlastb : fill zeroed 0 l (a + m.length - 1) ≠ 32 := by
      have := h2 (m.length - 1) (by omega)
      rw [show a + (m.length - 1) = a + m.length - 1 by omega] at this
      rw [this]
      exact fun h => hlast ((getD_last_of_getLast m 32 hnil).mpr h)
    have hrun := trim_whitespace_run (fill zeroed 0 l) a (a + m.length - 1) l.length
      (by omega) (by omega) hlen h1 hfirst (fun j _ hj => h5 j hj) h4
      (fun j hj1 hj2 => h3 j (by omega) hj2) hlastb
    rw [show a + m.length - 1 + 1 = a + m.length by omega] at hrun
    refine ⟨store (fill zeroed 0 l) (a + m.length) 0, a, hrun, ?_, ?_, ?_⟩
    · have := strlen_run (store (fill zeroed 0 l) (a + m.length) 0) (256 - a) a (a + m.length)
        (by omega) (by omega)
        (fun j hj1 hj2 => by
          simp only [store]
          rw [if_neg (by omega)]
          exact h5 j (by omega))
        (by simp [store])
      rw [this]
      congr 1
      omega
    · rw [hcom, getD_zero_of_head m 59 hnil]
      have := h2 0 hpos
      rw [Nat.add_zero] at this
      simp only [store]
      rw [if_neg (by omega), this]
    · rw [bytes_at_succ]
      congr 1
      · apply bytes_at_eq
        intro k hk
        simp only [store]
        rw [if_neg (by omega), if_neg (by omega)]
        exact h2 k hk
      · simp [store]

/-! ## One iteration of the streaming loop -/

theorem stream_loop_eof (fw : List Nat → List (Option Nat)) (fuel : Nat) (st : CState)
    (h : (file_readline st.file).2.1 = 0) :
    stream_loop fw (fuel + 1) st
      = (Status.done, { st with file := (file_readline st.file).2.2 }) := by
  rw [stream_loop]
  simp only [h, if_true]

theorem stream_loop_comment (fw : List Nat → List (Option Nat)) (fuel : Nat) (st : CState)
    (buf : Buf) (trimmed : Nat)
    (h : (file_readline st.file).2.1 ≠ 0)
    (ht : trim_whitespace (file_readline st.file).1 = some (buf, trimmed))
    (hc : buf trimmed = 59) :
    stream_loop fw (fuel + 1) st
      = stream_loop fw fuel { st with file := (file_readline st.file).2.2 } := by
  rw [stream_loop]
  simp only [h, if_false, ht, hc, if_true]

theorem stream_loop_send (fw : List Nat → List (Option Nat)) (fuel : Nat) (st st2 : CState)
    (buf : Buf) (trimmed len : Nat)
    (h : (file_readline st.file).2.1 ≠ 0)
    (ht : trim_whitespace (file_readline st.file).1 = some (buf, trimmed))
    (hc : buf trimmed ≠ 59)
    (hlen : strlen buf (256 - trimmed) trimmed = some len)
    (hthr : throttle (st.serial.length + 1)
        (sum (stage st.win (len % 256)).line_lengths)
        { st with file := (file_readline st.file).2.2, win := stage st.win (len % 256),
                  trace := st.trace ++ [Ev.stage (len % 256)] } = (Status.done, st2)) :
    stream_loop fw (fuel + 1) st
      = stream_loop fw fuel (transmit fw buf trimmed (len % 256) st2) := by
  rw [stream_loop]
  simp only [h, if_false, ht, hc, hlen, hthr]

theorem stream_loop_stall (fw : List Nat → List (Option Nat)) (fuel : Nat) (st st2 : CState)
    (buf : Buf) (trimmed len : Nat) (s : Status)
    (h : (file_readline st.file).2.1 ≠ 0)
    (ht : trim_whitespace (file_readline st.file).1 = some (buf, trimmed))
    (hc : buf trimmed ≠ 59)
    (hlen : strlen buf (256 - trimmed) trimmed = some len)
    (hthr : throttle (st.serial.length + 1)
        (sum (stage st.win (len % 256)).line_lengths)
        { st with file := (file_readline st.file).2.2, win := stage st.win (len % 256),
                  trace := st.trace ++ [Ev.stage (len % 256)] } = (s, st2))
    (hs : s ≠ Status.done) :
    stream_loop fw (fuel + 1) st = (s, st2) := by
  rw [stream_loop]
  simp only [h, if_false, ht, hc, hlen, hthr]
  cases s <;> first | rfl | exact absurd rfl hs

theorem stream_loop_fault_trim (fw : List Nat → List (Option Nat)) (fuel : Nat) (st : CState)
    (h : (file_readline st.file).2.1 ≠ 0)
    (ht : trim_whitespace (file_readline st.file).1 = none) :
    stream_loop fw (fuel + 1) st
      = (Status.fault, { st with file := (file_readline st.file).2.2 }) := by
  rw [stream_loop]
  simp only [h, if_false, ht]

theorem stream_loop_fault_strlen (fw : List Nat → List (Option Nat)) (fuel : Nat) (st : CState)
    (buf : Buf) (trimmed : Nat)
    (h : (file_readline st.file).2.1 ≠ 0)
    (ht : trim_whitespace (file_readline st.file).1 = some (buf, trimmed))
    (hc : buf trimmed ≠ 59)
    (hlen : strlen buf (256 - trimmed) trimmed = none) :
    stream_loop fw (fuel + 1) st
      = (Status.fault, { st with file := (file_readline st.file).2.2 }) := by
  rw [stream_loop]
  simp only [h, if_false, ht, hc, hlen]

/-! ## The iteration bounds of the model are never used up -/

theorem serial_loop_rest_le : ∀ (ev : List (Option Nat)) (buf : Buf) (i : Nat),
    (serial_readline_loop ev buf i).2.2.length ≤ ev.length := by
  intro ev
  induction ev with
  | nil => intro buf i; simp [serial_readline_loop]
  | cons e t ih =>
    intro buf i
    cases e with
    | none => simp [serial_readline_loop]
    | some ch =>
      rw [serial_readline_loop]
      split
      · exact Nat.le_succ_of_le (ih _ _)
      · split
        · simp
        · exact Nat.le_succ_of_le (ih _ _)

theorem serial_readline_rest_lt (e : Option Nat) (t : List (Option Nat)) :
    (serial_readline (e :: t)).2.2.length < (e :: t).length := by
  cases e with
  | none => simp [serial_readline, serial_readline_loop]
  | some ch =>
    rw [serial_readline, serial_readline_loop]
    split
    · exact Nat.lt_succ_of_le (serial_loop_rest_le _ _ _)
    · split
      · simp
      · exact Nat.lt_succ_of_le (serial_loop_rest_le _ _ _)

theorem file_loop_rest_le : ∀ (file : List Nat) (buf : Buf) (i : Nat),
    (file_readline_loop file buf i).2.2.length ≤ file.length := by
  intro file
  induction file with
  | nil => intro buf i; simp [file_readline_loop]
  | cons c t ih =>
    intro buf i
    rw [file_readline_loop]
    split
    · simp
    · exact Nat.le_succ_of_le (ih _ _)

theorem file_readline_rest_lt (file : List Nat) (h : (file_readline file).2.1 ≠ 0) :
    (file_readline file).2.2.length < file.length := by
  cases file with
  | nil => exact absurd rfl h
  | cons c t =>
    rw [file_readline, file_readline_loop]
    split
    · simp
    · exact Nat.lt_succ_of_le (file_loop_rest_le _ _ _)

theorem throttle_fuel : ∀ (fuel s : Nat) (st : CState), st.serial.length < fuel →
    (throttle fuel s st).1 ≠ Status.fuel ∧ (throttle fuel s st).2.file = st.file := by
  intro fuel
  induction fuel with
  | zero => intro s st h; omega
  | succ f ih =>
    intro s st h
    rw [throttle]
    split
    · cases hs : st.serial with
      | nil => exact ⟨by simp, rfl⟩
      | cons e t =>
        have hlt : st.readline.2.serial.length < f := by
          have := serial_readline_rest_lt e t
          simp only [CState.readline, hs]
          rw [hs] at h
          omega
        simp only
        split
        · exact ih _ st.readline.2.ack hlt
        · exact ih _ st.readline.2 hlt
    · exact ⟨by simp, rfl⟩

theorem drain_fuel : ∀ (fuel : Nat) (st : CState), st.serial.length < fuel →
    (drain fuel st).1 ≠ Status.fuel := by
  intro fuel
  induction fuel with
  | zero => intro st h; omega
  | succ f ih =>
    intro st h
    rw [drain]
    split
    · cases hs : st.serial with
      | nil => simp
      | cons e t =>
        have hlt : st.readline.2.serial.length < f := by
          have := serial_readline_rest_lt e t
          simp only [CState.readline, hs]
          rw [hs] at h
          omega
        simp only
        split
        · exact ih st.readline.2.ack hlt
        · exact ih st.readline.2 hlt
    · simp

theorem transmit_file (fw : List Nat → List (Option Nat)) (buf : Buf) (a len : Nat)
    (st : CState) : (transmit fw buf a len st).file = st.file := by
  simp only [transmit, CState.readline, CState.ack]
  split <;> rfl

theorem stream_loop_fuel (fw : List Nat → List (Option Nat)) : ∀ (fuel : Nat) (st : CState),
    st.file.length < fuel → (stream_loop fw fuel st).1 ≠ Status.fuel := by
  intro fuel
  induction fuel with
  | zero => intro st h; omega
  | succ f ih =>
    intro st h
    by_cases h0 : (file_readline st.file).2.1 = 0
    · rw [stream_loop_eof fw f st h0]
      simp
    · have hlt := file_readline_rest_lt st.file h0
      cases ht : trim_whitespace (file_readline st.file).1 with
      | none =>
        rw [stream_loop_fault_trim fw f st h0 ht]
        simp
      | some r =>
        obtain ⟨buf, a⟩ := r
        by_cases hc : buf a = 59
        · rw [stream_loop_comment fw f st buf a h0 ht hc]
          exact ih _ (by simp only; omega)
        · cases hlen : strlen buf (256 - a) a with
          | none =>
            rw [stream_loop_fault_strlen fw f st buf a h0 ht hc hlen]
            simp
          | some len =>
            have hthr := throttle_fuel (st.serial.length + 1)
              (sum (stage st.win (len % 256)).line_lengths)
              { st with file := (file_readline st.file).2.2, win := stage st.win (len % 256),
                        trace := st.trace ++ [Ev.stage (len % 256)] } (Nat.lt_succ_self _)
            rcases hr : throttle (st.serial.length + 1)
              (sum (stage st.win (len % 256)).line_lengths)
              { st with file := (file_readline st.file).2.2, win := stage st.win (len % 256),
                        trace := st.trace ++ [Ev.stage (len % 256)] } with ⟨s, st2⟩
            rw [hr] at hthr
            by_cases hs : s = Status.done
            · subst hs
              rw [stream_loop_send fw f st st2 buf a len h0 ht hc hlen hr]
              apply ih
              rw [transmit_file, hthr.2]
              simp only
              omega
            · rw [stream_loop_stall fw f st st2 buf a len s h0 ht hc hlen hr hs]
              exact hthr.1

/-- The model of `main` never stops for lack of fuel: every run ends as the
program does, hangs in a polling loop, or faults. -/
theorem controller_fuel (fw : List Nat → List (Option Nat)) (file : List Nat)
    (serial : List (Option Nat)) : (controller fw file serial).1 ≠ Status.fuel := by
  have h := stream_loop_fuel fw (file.length + 1) ⟨file, serial, Window.init, 0, []⟩
    (Nat.lt_succ_self _)
  rcases hr : stream_loop fw (file.length + 1) ⟨file, serial, Window.init, 0, []⟩ with ⟨s, st⟩
  rw [hr] at h
  simp only [controller, hr]
  cases s with
  | done => exact drain_fuel _ st (Nat.lt_succ_self _)
  | hang => simp
  | fault => simp
  | fuel => exact absurd rfl h

/-! ## The run against a firmware that answers every write at once -/

theorem throttle_pass (fuel s : Nat) (st : CState) (h : s < 127) :
    throttle (fuel + 1) s st = (Status.done, st) := by
  rw [throttle, if_neg (by omega)]

theorem sum_single (a : Buf) (len : Nat) (hlen : len < 256) (hz : ∀ j, a j = 0) :
    sum (store a 0 len) = len := by
  by_cases h0 : len = 0
  · subst h0
    simp [sum, sum_loop, store]
  · have := sum_loop_eq (store a 0 len) 1 (by omega)
      (fun j hj => by
        have : j = 0 := by omega
        subst this
        simp only [store, if_true]
        omega)
      (fun j hj1 _ => by
        simp only [store]
        rw [if_neg (by omega)]
        exact hz j)
      255 0 0 (by omega) (by omega) (by omega)
    rw [sum, this]
    simp [store]

theorem writes_append (t u : List Ev) : writes (t ++ u) = writes t ++ writes u := by
  induction t with
  | nil => rfl
  | cons e t ih => cases e <;> simp [writes, ih]

theorem acks_append (t u : List Ev) : acks (t ++ u) = acks t + acks u := by
  induction t with
  | nil => simp [acks]
  | cons e t ih => cases e <;> simp [acks, ih]; omega

theorem writes_ok_trace (lines : List (List Nat)) :
    writes (ok_trace lines) = expected_writes lines := by
  induction lines with
  | nil => rfl
  | cons l t ih =>
    by_cases hc : is_comment l = true
    · simp only [ok_trace, hc, if_true, ih, expected_writes, List.filter_cons]
      simp
    · simp only [Bool.not_eq_true] at hc
      simp only [ok_trace, hc, expected_writes, List.filter_cons]
      simpa [writes, expected_writes] using ih

theorem acks_ok_trace (lines : List (List Nat)) :
    acks (ok_trace lines) = (expected_writes lines).length := by
  induction lines with
  | nil => rfl
  | cons l t ih =>
    by_cases hc : is_comment l = true
    · simp only [ok_trace, hc, if_true, ih, expected_writes, List.filter_cons]
      simp
    · simp only [Bool.not_eq_true] at hc
      simp only [ok_trace, hc, expected_writes, List.filter_cons]
      simp [acks, ih, expected_writes]

theorem transmit_ok (buf : Buf) (a len : Nat) (st : CState) (hser : st.serial = []) :
    (transmit fw_ok buf a len st).file = st.file ∧
      (transmit fw_ok buf a len st).serial = [] ∧
      (transmit fw_ok buf a len st).win = acknowledge st.win ∧
      (transmit fw_ok buf a len st).trace
        = st.trace ++ [Ev.write (bytes_at (store buf (a + len) 10) a (len + 1)) st.win.pending,
            Ev.read 3, Ev.ack] := by
  have hok1 : (serial_readline [some 111, some 107, some 10]).2.1 = 3 := rfl
  have hok2 : (serial_readline [some 111, some 107, some 10]).2.2 = [] := rfl
  simp [transmit, CState.readline, CState.ack, hser, fw_ok, hok1, hok2]

theorem stream_ok_lines : ∀ (lines : List (List Nat)) (fuel : Nat) (st : CState),
    (∀ l ∈ lines, l ≠ [] ∧ l.length ≤ 255 ∧ ∀ c ∈ l, c ≠ 10 ∧ c ≠ 0) →
    (∀ l ∈ lines, is_comment l = false → (trim_spec l).length ≤ 126) →
    (file_of_lines lines).length < fuel →
    st.file = file_of_lines lines → st.serial = [] → st.win.lli = 0 →
    (∀ j, st.win.line_lengths j = 0) →
    ∃ st1, stream_loop fw_ok fuel st = (Status.done, st1) ∧ st1.serial = [] ∧
      st1.win.lli = 0 ∧ (∀ j, st1.win.line_lengths j = 0) ∧
      st1.trace = st.trace ++ ok_trace lines := by
  intro lines
  induction lines with
  | nil =>
    intro fuel st _ _ hfuel hfile hser hlli hz
    obtain ⟨f, rfl⟩ : ∃ f, fuel = f + 1 := ⟨fuel - 1, by omega⟩
    have h0 : (file_readline st.file).2.1 = 0 := by rw [hfile]; rfl
    rw [stream_loop_eof fw_ok f st h0]
    exact ⟨_, rfl, hser, hlli, hz, by simp [ok_trace]⟩
  | cons l t ih =>
    intro fuel st hl hcmd hfuel hfile hser hlli hz
    obtain ⟨f, rfl⟩ : ∃ f, fuel = f + 1 := ⟨fuel - 1, by omega⟩
    obtain ⟨hne, hlen, hbytes⟩ := hl l (List.mem_cons_self l t)
    have hl2 : ∀ x ∈ t, x ≠ [] ∧ x.length ≤ 255 ∧ ∀ c ∈ x, c ≠ 10 ∧ c ≠ 0 :=
      fun x hx => hl x (List.mem_cons_of_mem l hx)
    have hcmd2 : ∀ x ∈ t, is_comment x = false → (trim_spec x).length ≤ 126 :=
      fun x hx => hcmd x (List.mem_cons_of_mem l hx)
    have hfuel2 : (file_of_lines t).length < f := by
      simp only [file_of_lines, List.length_append, List.length_cons] at hfuel
      omega
    have hread : file_readline st.file = (fill zeroed 0 l, l.length, file_of_lines t) := by
      rw [hfile, file_of_lines]
      exact file_readline_line l _ (fun c hc => (hbytes c hc).1) hlen
    have hn0 : (file_readline st.file).2.1 ≠ 0 := by
      rw [hread]
      exact fun h => hne (List.length_eq_zero.mp h)
    obtain ⟨buf, a, htrim, hstr, hcom, hpay⟩ :=
      trim_line_result l (fun c hc => (hbytes c hc).2) hlen
    have htrim2 : trim_whitespace (file_readline st.file).1 = some (buf, a) := by
      rw [hread]
      exact htrim
    by_cases hc : is_comment l = true
    · rw [stream_loop_comment fw_ok f st buf a hn0 htrim2 (hcom.mpr hc)]
      obtain ⟨st1, h1, h2, h3, h4, h5⟩ := ih f { st with file := (file_readline st.file).2.2 }
        hl2 hcmd2 hfuel2 (by rw [hread]) hser hlli hz
      exact ⟨st1, h1, h2, h3, h4, by rw [h5]; simp [ok_trace, hc]⟩
    · have hcf : is_comment l = false := by simpa using hc
      have hm := hcmd l (List.mem_cons_self l t) hcf
      have hmod : (trim_spec l).length % 256 = (trim_spec l).length := Nat.mod_eq_of_lt (by omega)
      have hstage : stage st.win (trim_spec l).length
          = ⟨store st.win.line_lengths 0 (trim_spec l).length, 1⟩ := by
        simp [stage, hlli]
      have hsum : sum (stage st.win ((trim_spec l).length % 256)).line_lengths
          = (trim_spec l).length := by
        rw [hmod, hstage]
        exact sum_single _ _ (by omega) hz
      have hthr := throttle_pass st.serial.length
        (sum (stage st.win ((trim_spec l).length % 256)).line_lengths)
        { st with file := (file_readline st.file).2.2,
                  win := stage st.win ((trim_spec l).length % 256),
                  trace := st.trace ++ [Ev.stage ((trim_spec l).length % 256)] }
        (by rw [hsum]; omega)
      rw [stream_loop_send fw_ok f st _ buf a (trim_spec l).length hn0 htrim2
        (fun h => hc (hcom.mp h)) hstr hthr]
      obtain ⟨g1, g2, g3, g4⟩ := transmit_ok buf a ((trim_spec l).length % 256)
        { st with file := (file_readline st.file).2.2,
                  win := stage st.win ((trim_spec l).length % 256),
                  trace := st.trace ++ [Ev.stage ((trim_spec l).length % 256)] } hser
      obtain ⟨st1, h1, h2, h3, h4, h5⟩ := ih f _ hl2 hcmd2 hfuel2
        (by rw [g1]; simp only [hread])
        g2
        (by rw [g3, hmod, hstage]; simp [acknowledge])
        (by
          intro j
          rw [g3, hmod, hstage]
          simp only [acknowledge, memmove_down, store]
          split
          · rw [if_neg (by omega)]
            exact hz _
          · rw [if_neg (by omega)]
            exact hz _)
      refine ⟨st1, h1, h2, h3, h4, ?_⟩
      rw [h5, g4, hmod, hstage, hpay]
      simp [ok_trace, hcf, Window.pending, bytes_at, store, List.range_succ]

/-! ## Claim C3 -/

theorem drain_idle (fuel : Nat) (st : CState) (h : st.win.lli ≤ 2) :
    drain (fuel + 1) st = (Status.done, st) := by
  rw [drain, if_neg (by omega)]

set_option maxRecDepth 100000 in
/-- C3 (as stated, refuted): the file with the 256-byte comment line `";xx...x"`
followed by the line `"G1"` has non-empty lines and one non-comment command of 2
bytes, yet against the firmware that answers every write with `"ok\n"` the
controller writes nothing: `file_readline` returns 0 for the 256-byte line and
the streaming loop ends. -/
theorem controller_ok_run_long_line :
    (∀ l ∈ [59 :: List.replicate 255 120, [71, 49]], l ≠ []) ∧
      (∀ l ∈ [59 :: List.replicate 255 120, [71, 49]],
        is_comment l = false → 1 ≤ (trim_spec l).length ∧ (trim_spec l).length ≤ 126) ∧
      expected_writes [59 :: List.replicate 255 120, [71, 49]] = [[71, 49, 10]] ∧
      writes (controller fw_ok
        (file_of_lines [59 :: List.replicate 255 120, [71, 49]]) []).2.trace = [] := by
  decide

/-- C3 (amended): for every command file of non-empty text lines of at most 255
bytes (no NUL byte) whose non-comment commands are 1 to 126 bytes long, run
against a firmware that answers every write with the line `"ok\n"`, the
controller ends normally, has written exactly the trimmed non-comment lines, each
followed by one `'\n'`, in file order, has made one acknowledge step per write,
and ends with `lli == 0`. -/
theorem controller_ok_run (lines : List (List Nat))
    (hlines : ∀ l ∈ lines, l ≠ [] ∧ l.length ≤ 255 ∧ ∀ c ∈ l, c ≠ 10 ∧ c ≠ 0)
    (hcmd : ∀ l ∈ lines, is_comment l = false →
      1 ≤ (trim_spec l).length ∧ (trim_spec l).length ≤ 126) :
    (controller fw_ok (file_of_lines lines) []).1 = Status.done ∧
      writes (controller fw_ok (file_of_lines lines) []).2.trace = expected_writes lines ∧
      acks (controller fw_ok (file_of_lines lines) []).2.trace = (expected_writes lines).length ∧
      (controller fw_ok (file_of_lines lines) []).2.win.lli = 0 := by
  obtain ⟨st1, h1, h2, h3, _, h5⟩ := stream_ok_lines lines ((file_of_lines lines).length + 1)
    ⟨file_of_lines lines, [], Window.init, 0, []⟩ hlines (fun l hl hc => (hcmd l hl hc).2)
    (Nat.lt_succ_self _) rfl rfl rfl (fun _ => rfl)
  have hrun : controller fw_ok (file_of_lines lines) [] = (Status.done, st1) := by
    simp only [controller, h1]
    exact drain_idle _ st1 (by omega)
  rw [hrun]
  simp only [List.nil_append] at h5
  exact ⟨rfl, by rw [h5]; exact writes_ok_trace lines, by rw [h5]; exact acks_ok_trace lines, h3⟩

theorem controller_ok_run_witness :
    writes (controller fw_ok (file_of_lines
        [[71, 49, 32, 88, 49], [59, 32, 99, 111, 109, 109, 101, 110, 116], [71, 49, 32, 88, 50]])
        []).2.trace = [[71, 49, 32, 88, 49, 10], [71, 49, 32, 88, 50, 10]] ∧
      acks (controller fw_ok (file_of_lines
        [[71, 49, 32, 88, 49], [59, 32, 99, 111, 109, 109, 101, 110, 116], [71, 49, 32, 88, 50]])
        []).2.trace = 2 ∧
      (controller fw_ok (file_of_lines
        [[71, 49, 32, 88, 49], [59, 32, 99, 111, 109, 109, 101, 110, 116], [71, 49, 32, 88, 50]])
        []).2.win.lli = 0 :=
  have h := controller_ok_run
    [[71, 49, 32, 88, 49], [59, 32, 99, 111, 109, 109, 101, 110, 116], [71, 49, 32, 88, 50]]
    (by decide) (by decide)
  ⟨h.2.1, h.2.2.1, h.2.2.2⟩

/-! ## Claims C1, C2 and C7: runs on concrete files -/

set_option maxRecDepth 100000 in
/-- C1 (violated by the code): on the file made of a line of two spaces, a line
of 64 bytes `a` and a line of 64 bytes `b`, with a firmware whose first line
`"ok\n"` arrives only after the three reads that follow the writes have timed
out, the run ends normally, the lengths staged are 0, 64 and 64, and the totals
of the pending entries at the three writes are 0, 64 and 128: the third command
is transmitted with a pending total of 128, not below 127, because `sum` stops at
the zero entry in slot 0. -/
theorem window_bound_blank_line :
    (controller fw_silent
        ([32, 32, 10] ++ List.replicate 64 97 ++ [10] ++ List.replicate 64 98 ++ [10])
        [none, none, none, some 111, some 107, some 10]).1 = Status.done ∧
      staged (controller fw_silent
        ([32, 32, 10] ++ List.replicate 64 97 ++ [10] ++ List.replicate 64 98 ++ [10])
        [none, none, none, some 111, some 107, some 10]).2.trace = [0, 64, 64] ∧
      tx_totals (controller fw_silent
        ([32, 32, 10] ++ List.replicate 64 97 ++ [10] ++ List.replicate 64 98 ++ [10])
        [none, none, none, some 111, some 107, some 10]).2.trace = [0, 64, 128] ∧
      ¬ (128 < 127) := by
  decide

/-- C2 (violated by the code): on the file `"G1\n\nG2\n"` the streaming loop ends
at the empty second line, for which `file_readline` returns 0: the only write is
`"G1\n"`, the run ends normally, and the line `"G2\n"` is left unread. -/
theorem stream_stops_at_empty_line :
    (controller fw_ok [71, 49, 10, 10, 71, 50, 10] []).1 = Status.done ∧
      writes (controller fw_ok [71, 49, 10, 10, 71, 50, 10] []).2.trace = [[71, 49, 10]] ∧
      (controller fw_ok [71, 49, 10, 10, 71, 50, 10] []).2.file = [71, 50, 10] := by
  decide

/-- C7 (violated by the code): for the line of two spaces `file_readline` returns
2, the trimmed line is empty and is not a comment, and the controller stages the
length 0 for it and writes the bare terminator. -/
theorem stages_zero_for_blank_line :
    (file_readline [32, 32, 10]).2.1 = 2 ∧
      staged (controller fw_ok [32, 32, 10] []).2.trace = [0] ∧
      writes (controller fw_ok [32, 32, 10] []).2.trace = [[10]] := by
  decide

/-! ## `trim_whitespace` on any buffer that holds a NUL -/

theorem back_spaces_bounds (buf : Buf) (str : Nat) : ∀ (e0 : Nat), str ≤ e0 →
    str ≤ back_spaces buf str e0 ∧ back_spaces buf str e0 ≤ e0 := by
  intro e0
  induction e0 with
  | zero => intro h; exact ⟨by simpa [back_spaces] using h, by simp [back_spaces]⟩
  | succ k ih =>
    intro h
    rw [back_spaces]
    split
    · rename_i hc
      have := ih (by omega)
      exact ⟨this.1, by omega⟩
    · exact ⟨h, Nat.le_refl _⟩

theorem trim_whitespace_total (buf : Buf) (n : Nat) (hn : n ≤ 255) (h0 : buf n = 0) :
    ∃ buf1 a len, trim_whitespace buf = some (buf1, a) ∧
      strlen buf1 (256 - a) a = some len ∧ a + len ≤ n ∧
      (∀ k, k < len → buf1 (a + k) = buf (a + k)) ∧
      (len = 0 → buf1 a = 0) := by
  classical
  have hex : ∃ j, buf j ≠ 32 := ⟨n, by rw [h0]; decide⟩
  have ha1 : buf (Nat.find hex) ≠ 32 := Nat.find_spec hex
  have ha2 : ∀ j, j < Nat.find hex → buf j = 32 := fun j hj => by
    have := Nat.find_min hex hj
    simpa using this
  have ha3 : Nat.find hex ≤ n := Nat.find_min' hex (by rw [h0]; decide)
  generalize Nat.find hex = a at ha1 ha2 ha3
  by_cases hz : buf a = 0
  · refine ⟨buf, a, 0, trim_whitespace_blank buf a (by omega) ha2 hz, ?_, by omega, ?_, fun _ => hz⟩
    · simpa using strlen_run buf (256 - a) a a (Nat.le_refl _) (by omega)
        (fun j hj1 hj2 => by omega) hz
    · intro k hk
      omega
  · have hex2 : ∃ j, a ≤ j ∧ buf j = 0 := ⟨n, ha3, h0⟩
    have hq1 := Nat.find_spec hex2
    have hq2 : ∀ j, a ≤ j → j < Nat.find hex2 → buf j ≠ 0 := fun j hj1 hj2 h => by
      exact Nat.find_min hex2 hj2 ⟨hj1, h⟩
    have hq3 : Nat.find hex2 ≤ n := Nat.find_min' hex2 ⟨ha3, h0⟩
    generalize Nat.find hex2 = q at hq1 hq2 hq3
    have haq : a < q := by
      rcases Nat.lt_or_ge a q with h | h
      · exact h
      · have : q = a := by omega
        rw [this] at hq1
        exact absurd hq1.2 hz
    have hb := back_spaces_bounds buf a (a + (q - a) - 1) (by omega)
    have h1 : skip_spaces buf 256 0 = some a :=
      skip_spaces_run buf 256 0 a (Nat.zero_le _) (by omega) (fun j _ hj => ha2 j hj) ha1
    have h2 : strlen buf (256 - a) a = some (q - a) :=
      strlen_run buf (256 - a) a q (by omega) (by omega) hq2 hq1.2
    generalize he : back_spaces buf a (a + (q - a) - 1) = e at hb
    refine ⟨store buf (e + 1) 0, a, e + 1 - a, ?_, ?_, by omega, ?_, fun h => by omega⟩
    · simp only [trim_whitespace, h1, h2, he, if_neg hz]
    · have := strlen_run (store buf (e + 1) 0) (256 - a) a (e + 1) (by omega) (by omega)
        (fun j hj1 hj2 => by
          simp only [store]
          rw [if_neg (by omega)]
          exact hq2 j hj1 (by omega))
        (by simp [store])
      exact this
    · intro k hk
      simp only [store]
      rw [if_neg (by omega)]

/-! ## Claim C11: `trim_whitespace` against the trimmed form of a string -/

theorem trim_string_result (l : List Nat) (buf0 : Buf) (hl : ∀ c ∈ l, c ≠ 0)
    (hlen : l.length ≤ 255) (hB : ∀ j, j ≤ l.length → buf0 j = l.getD j 0) :
    ∃ buf a, trim_whitespace buf0 = some (buf, a) ∧
      strlen buf (256 - a) a = some (trim_spec l).length ∧
      (buf a = 59 ↔ is_comment l = true) ∧
      bytes_at buf a (trim_spec l).length = trim_spec l := by
  obtain ⟨a, b, hshape, hhead, hlast⟩ := trim_spec_shape l
  have hn : l.length = a + (trim_spec l).length + b := by
    conv_lhs => rw [hshape]
    simp only [List.length_append, List.length_replicate]
    omega
  have hcom : is_comment l = true ↔ (trim_spec l).head? = some 59 := by
    simp [is_comment]
  generalize hm : trim_spec l = m at hshape hhead hlast hn hcom
  have h1 : ∀ j, j < a → buf0 j = 32 := fun j hj => by
    rw [hB j (by omega), hshape, shape_lead a b j m hj]
  have h2 : ∀ k, k < m.length → buf0 (a + k) = m.getD k 0 := fun k hk => by
    rw [hB (a + k) (by omega), hshape, shape_mid a b k m hk]
  have h3 : ∀ j, a + m.length ≤ j → j < l.length → buf0 j = 32 := fun j hj1 hj2 => by
    rw [hB j (by omega), hshape, shape_trail a b j m hj1 (by omega)]
  have h4 : buf0 l.length = 0 := by
    rw [hB _ (Nat.le_refl _), List.getD_eq_default _ _ (Nat.le_refl _)]
  have h5 : ∀ j, j < l.length → buf0 j ≠ 0 := fun j hj => by
    rw [hB j (by omega)]
    exact getD_ne_zero l hl j hj
  by_cases hnil : m = []
  · subst hnil
    simp only [List.length_nil, Nat.add_zero] at hn h3
    refine ⟨buf0, l.length, ?_, ?_, ?_, ?_⟩
    · apply trim_whitespace_blank _ _ hlen _ h4
      intro j hj
      by_cases hja : j < a
      · exact h1 j hja
      · exact h3 j (by omega) hj
    · simpa using strlen_run buf0 (256 - l.length) l.length l.length
        (Nat.le_refl _) (by omega) (fun j hj1 hj2 => by omega) h4
    · rw [h4, hcom]
      simp
    · simp [bytes_at]
  · have hpos : 0 < m.length := List.length_pos.mpr hnil
    have hfirst : buf0 a ≠ 32 := by
      have := h2 0 hpos
      rw [Nat.add_zero] at this
      rw [this]
      exact fun h => hhead ((getD_zero_of_head m 32 hnil).mpr h)
    have hlastb : buf0 (a + m.length - 1) ≠ 32 := by
      have := h2 (m.length - 1) (by omega)
      rw [show a + (m.length - 1) = a + m.length - 1 by omega] at this
      rw [this]
      exact fun h => hlast ((getD_last_of_getLast m 32 hnil).mpr h)
    have hrun := trim_whitespace_run buf0 a (a + m.length - 1) l.length
      (by omega) (by omega) hlen h1 hfirst (fun j _ hj => h5 j hj) h4
      (fun j hj1 hj2 => h3 j (by omega) hj2) hlastb
    rw [show a + m.length - 1 + 1 = a + m.length by omega] at hrun
    refine ⟨store buf0 (a + m.length) 0, a, hrun, ?_, ?_, ?_⟩
    · have := strlen_run (store buf0 (a + m.length) 0) (256 - a) a (a + m.length)
        (by omega) (by omega)
        (fun j hj1 hj2 => by
          simp only [store]
          rw [if_neg (by omega)]
          exact h5 j (by omega))
        (by simp [store])
      rw [this]
      congr 1
      omega
    · rw [hcom, getD_zero_of_head m 59 hnil]
      have := h2 0 hpos
      rw [Nat.add_zero] at this
      simp only [store]
      rw [if_neg (by omega), this]
    · apply bytes_at_eq
      intro k hk
      simp only [store]
      rw [if_neg (by omega)]
      exact h2 k hk

/-- C11: for every NUL-terminated string `s` of at most 255 bytes held at the
start of the array, `trim_whitespace` returns a pointer to the C string
`trim_spec s`, and that string is `s` without its leading and trailing space
bytes: `s` is some spaces, then `trim_spec s`, then some spaces, and `trim_spec s`
neither starts nor ends with a space.  In particular `"  G1 X10  "` gives
`"G1 X10"` and `"    "` gives the empty string. -/
theorem trim_whitespace_spec (s : List Nat) (buf : Buf) (hs : ∀ c ∈ s, c ≠ 0)
    (hlen : s.length ≤ 255) (hbuf : ∀ j, j ≤ s.length → buf j = s.getD j 0) :
    (∃ r, trim_whitespace buf = some r ∧ c_string r.1 r.2 = some (trim_spec s)) ∧
      (∃ a b, s = List.replicate a 32 ++ (trim_spec s ++ List.replicate b 32)) ∧
      (trim_spec s).head? ≠ some 32 ∧ (trim_spec s).getLast? ≠ some 32 ∧
      trim_spec [32, 32, 71, 49, 32, 88, 49, 48, 32, 32] = [71, 49, 32, 88, 49, 48] ∧
      trim_spec [32, 32, 32, 32] = [] := by
  obtain ⟨b1, a, h1, h2, _, h4⟩ := trim_string_result s buf hs hlen hbuf
  obtain ⟨x, y, hx, hy, hz⟩ := trim_spec_shape s
  refine ⟨⟨(b1, a), h1, ?_⟩, ⟨x, y, hx⟩, hy, hz, by decide, by decide⟩
  simp only [c_string, h2, Option.map_some', h4]

theorem trim_whitespace_spec_witness :
    (∃ r, trim_whitespace (fill zeroed 0 [32, 32, 71, 49, 32, 88, 49, 48, 32, 32]) = some r ∧
        c_string r.1 r.2 = some [71, 49, 32, 88, 49, 48]) ∧
      (∃ r, trim_whitespace (fill zeroed 0 [32, 32, 32, 32]) = some r ∧
        c_string r.1 r.2 = some []) :=
  ⟨(trim_whitespace_spec [32, 32, 71, 49, 32, 88, 49, 48, 32, 32]
      (fill zeroed 0 [32, 32, 71, 49, 32, 88, 49, 48, 32, 32]) (by decide) (by decide)
      (fun j _ => fill_zeroed_apply _ j)).1,
   (trim_whitespace_spec [32, 32, 32, 32] (fill zeroed 0 [32, 32, 32, 32]) (by decide)
      (by decide) (fun j _ => fill_zeroed_apply _ j)).1⟩

/-! ## One pass through the loop body -/

theorem stream_body_eof (fw : List Nat → List (Option Nat)) (st : CState)
    (h : (file_readline st.file).2.1 = 0) :
    stream_body fw st = (some Status.done, { st with file := (file_readline st.file).2.2 }) := by
  simp only [stream_body, h, if_true]

theorem stream_body_comment (fw : List Nat → List (Option Nat)) (st : CState)
    (buf : Buf) (trimmed : Nat)
    (h : (file_readline st.file).2.1 ≠ 0)
    (ht : trim_whitespace (file_readline st.file).1 = some (buf, trimmed))
    (hc : buf trimmed = 59) :
    stream_body fw st = (none, { st with file := (file_readline st.file).2.2 }) := by
  simp only [stream_body, h, if_false, ht, hc, if_true]

theorem stream_body_send (fw : List Nat → List (Option Nat)) (st st2 : CState)
    (buf : Buf) (trimmed len : Nat)
    (h : (file_readline st.file).2.1 ≠ 0)
    (ht : trim_whitespace (file_readline st.file).1 = some (buf, trimmed))
    (hc : buf trimmed ≠ 59)
    (hlen : strlen buf (256 - trimmed) trimmed = some len)
    (hthr : throttle (st.serial.length + 1)
        (sum (stage st.win (len % 256)).line_lengths)
        { st with file := (file_readline st.file).2.2, win := stage st.win (len % 256),
                  trace := st.trace ++ [Ev.stage (len % 256)] } = (Status.done, st2)) :
    stream_body fw st = (none, transmit fw buf trimmed (len % 256) st2) := by
  simp only [stream_body, h, if_false, ht, hc, hlen, hthr]

theorem stream_body_stall (fw : List Nat → List (Option Nat)) (st st2 : CState)
    (buf : Buf) (trimmed len : Nat) (s : Status)
    (h : (file_readline st.file).2.1 ≠ 0)
    (ht : trim_whitespace (file_readline st.file).1 = some (buf, trimmed))
    (hc : buf trimmed ≠ 59)
    (hlen : strlen buf (256 - trimmed) trimmed = some len)
    (hthr : throttle (st.serial.length + 1)
        (sum (stage st.win (len % 256)).line_lengths)
        { st with file := (file_readline st.file).2.2, win := stage st.win (len % 256),
                  trace := st.trace ++ [Ev.stage (len % 256)] } = (s, st2))
    (hs : s ≠ Status.done) :
    stream_body fw st = (some s, st2) := by
  simp only [stream_body, h, if_false, ht, hc, hlen, hthr]
  cases s <;> first | rfl | exact absurd rfl hs

theorem stream_body_fault_trim (fw : List Nat → List (Option Nat)) (st : CState)
    (h : (file_readline st.file).2.1 ≠ 0)
    (ht : trim_whitespace (file_readline st.file).1 = none) :
    stream_body fw st = (some Status.fault, { st with file := (file_readline st.file).2.2 }) := by
  simp only [stream_body, h, if_false, ht]

theorem stream_body_fault_strlen (fw : List Nat → List (Option Nat)) (st : CState)
    (buf : Buf) (trimmed : Nat)
    (h : (file_readline st.file).2.1 ≠ 0)
    (ht : trim_whitespace (file_readline st.file).1 = some (buf, trimmed))
    (hc : buf trimmed ≠ 59)
    (hlen : strlen buf (256 - trimmed) trimmed = none) :
    stream_body fw st = (some Status.fault, { st with file := (file_readline st.file).2.2 }) := by
  simp only [stream_body, h, if_false, ht, hc, hlen]

/-- The streaming loop is the repetition of its body. -/
theorem stream_loop_body (fw : List Nat → List (Option Nat)) (fuel : Nat) (st : CState) :
    stream_loop fw (fuel + 1) st
      = match stream_body fw st with
        | (none, st1) => stream_loop fw fuel st1
        | (some s, st1) => (s, st1) := by
  by_cases h0 : (file_readline st.file).2.1 = 0
  · rw [stream_loop_eof fw fuel st h0, stream_body_eof fw st h0]
  · cases ht : trim_whitespace (file_readline st.file).1 with
    | none => rw [stream_loop_fault_trim fw fuel st h0 ht, stream_body_fault_trim fw st h0 ht]
    | some r =>
      obtain ⟨buf, a⟩ := r
      by_cases hc : buf a = 59
      · rw [stream_loop_comment fw fuel st buf a h0 ht hc, stream_body_comment fw st buf a h0 ht hc]
      · cases hlen : strlen buf (256 - a) a with
        | none =>
          rw [stream_loop_fault_strlen fw fuel st buf a h0 ht hc hlen,
            stream_body_fault_strlen fw st buf a h0 ht hc hlen]
        | some len =>
          rcases hr : throttle (st.serial.length + 1)
            (sum (stage st.win (len % 256)).line_lengths)
            { st with file := (file_readline st.file).2.2, win := stage st.win (len % 256),
                      trace := st.trace ++ [Ev.stage (len % 256)] } with ⟨s, st2⟩
          by_cases hs : s = Status.done
          · subst hs
            rw [stream_loop_send fw fuel st st2 buf a len h0 ht hc hlen hr,
              stream_body_send fw st st2 buf a len h0 ht hc hlen hr]
          · rw [stream_loop_stall fw fuel st st2 buf a len s h0 ht hc hlen hr hs,
              stream_body_stall fw st st2 buf a len s h0 ht hc hlen hr hs]

theorem file_loop_eof : ∀ (b : List Nat) (buf : Buf) (i : Nat),
    (∀ c ∈ b, c ≠ 10) → i + b.length ≤ 255 →
    file_readline_loop b buf i = (fill buf i b, i + b.length, []) := by
  intro b
  induction b with
  | nil =>
    intro buf i _ _
    simp [file_readline_loop, fill]
  | cons c t ih =>
    intro buf i hb hlen
    simp only [List.length_cons] at hlen
    have hc := hb c (List.mem_cons_self c t)
    have h : i + 1 + t.length = i + (t.length + 1) := by omega
    rw [file_readline_loop, if_neg hc, Nat.mod_eq_of_lt (by omega : i + 1 < 256),
      ih (store buf i c) (i + 1) (fun x hx => hb x (List.mem_cons_of_mem c hx)) (by omega),
      fill, List.length_cons, h]

/-- What `file_readline` returns for a line of at most 255 bytes, whether the
line ends with `'\n'` or with the end of the file. -/
theorem file_readline_next (file l rest : List Nat) (hl : ∀ c ∈ l, c ≠ 10)
    (hlen : l.length ≤ 255) (hfile : file = l ++ 10 :: rest ∨ (file = l ∧ rest = [])) :
    file_readline file = (fill zeroed 0 l, l.length, rest) := by
  rcases hfile with h | ⟨h, hr⟩
  · rw [h]
    exact file_readline_line l rest hl hlen
  · rw [h, hr, file_readline, file_loop_eof l zeroed 0 hl (by omega), Nat.zero_add]

/-! ## What the loops add to the record -/

theorem staged_append (t u : List Ev) : staged (t ++ u) = staged t ++ staged u := by
  induction t with
  | nil => rfl
  | cons e t ih => cases e <;> simp [staged, ih]

theorem replay_append (w : Window) (t u : List Ev) :
    replay w (t ++ u) = replay (replay w t) u := by
  simp [replay, List.foldl_append]

theorem throttle_trace : ∀ (fuel s : Nat) (st : CState),
    ∃ evs, (throttle fuel s st).2.trace = st.trace ++ evs ∧ writes evs = [] ∧ staged evs = [] ∧
      (throttle fuel s st).2.win = replay st.win evs := by
  intro fuel
  induction fuel with
  | zero => intro s st; exact ⟨[], by simp [throttle], rfl, rfl, rfl⟩
  | succ f ih =>
    intro s st
    rw [throttle]
    split
    · cases hs : st.serial with
      | nil => exact ⟨[], by simp, rfl, rfl, rfl⟩
      | cons e t =>
        simp only
        split
        · obtain ⟨evs, h1, h2, h3, h4⟩ := ih (sum st.readline.2.ack.win.line_lengths)
            st.readline.2.ack
          refine ⟨[Ev.read st.readline.1, Ev.ack] ++ evs, ?_, ?_, ?_, ?_⟩
          · rw [h1]
            simp [CState.readline, CState.ack]
          · simp [writes, h2]
          · simp [staged, h3]
          · rw [h4, replay_append]
            rfl
        · obtain ⟨evs, h1, h2, h3, h4⟩ := ih s st.readline.2
          refine ⟨[Ev.read st.readline.1] ++ evs, ?_, ?_, ?_, ?_⟩
          · rw [h1]
            simp [CState.readline]
          · simp [writes, h2]
          · simp [staged, h3]
          · rw [h4, replay_append]
            rfl
    · exact ⟨[], by simp, rfl, rfl, rfl⟩

theorem transmit_trace (fw : List Nat → List (Option Nat)) (buf : Buf) (a len : Nat)
    (st : CState) :
    ∃ rc, (transmit fw buf a len st).trace
        = st.trace ++ (Ev.write (bytes_at (store buf (a + len) 10) a (len + 1)) st.win.pending
            :: Ev.read rc :: (if rc > 0 then [Ev.ack] else [])) ∧
      (transmit fw buf a len st).win = (if rc > 0 then acknowledge st.win else st.win) := by
  refine ⟨(serial_readline (st.serial
    ++ fw (bytes_at (store buf (a + len) 10) a (len + 1)))).2.1, ?_, ?_⟩
  · simp only [transmit, CState.readline, CState.ack]
    split <;> simp
  · simp only [transmit, CState.readline, CState.ack]
    split <;> rfl

theorem bytes_at_store_end (buf : Buf) (a len : Nat) :
    bytes_at (store buf (a + len) 10) a (len + 1) = bytes_at buf a len ++ [10] := by
  rw [bytes_at_succ]
  congr 1
  · simp only [bytes_at]
    apply List.map_congr_left
    intro k hk
    simp only [List.mem_range] at hk
    simp only [store]
    rw [if_neg (by omega)]
  · simp [store]

theorem writes_transmit (fw : List Nat → List (Option Nat)) (buf : Buf) (a len : Nat)
    (st : CState) :
    writes (transmit fw buf a len st).trace = writes st.trace ++ [bytes_at buf a len ++ [10]] := by
  obtain ⟨rc, h, _⟩ := transmit_trace fw buf a len st
  rw [h, writes_append, bytes_at_store_end]
  by_cases hrc : rc > 0 <;> simp [writes, hrc]

/-! ## The loop body on one line of the file -/

theorem fill_line_end (l : List Nat) : fill zeroed 0 l l.length = 0 := by
  rw [fill_zeroed_apply, List.getD_eq_default _ _ (Nat.le_refl _)]

theorem stream_body_writes (fw : List Nat → List (Option Nat)) (st : CState)
    (l rest : List Nat) (hl : ∀ c ∈ l, c ≠ 10) (hlen : l.length ≤ 255)
    (hfile : st.file = l ++ 10 :: rest ∨ (st.file = l ∧ rest = [])) :
    ∃ buf a len, trim_whitespace (file_readline st.file).1 = some (buf, a) ∧
      strlen buf (256 - a) a = some len ∧ a + len ≤ l.length ∧
      (∀ k, k < len → buf (a + k) = l.getD (a + k) 0) ∧ (len = 0 → buf a = 0) ∧
      writes (stream_body fw st).2.trace
        = writes st.trace
          ++ (if (stream_body fw st).1 = none ∧ buf a ≠ 59 then [bytes_at buf a len ++ [10]]
              else []) ∧
      (l ≠ [] → buf a ≠ 59 → sum (stage st.win len).line_lengths < 127 →
        (stream_body fw st).1 = none) := by
  have hread := file_readline_next st.file l rest hl hlen hfile
  obtain ⟨buf, a, len, h1, h2, h3, h4, h5⟩ :=
    trim_whitespace_total (fill zeroed 0 l) l.length hlen (fill_line_end l)
  have ht : trim_whitespace (file_readline st.file).1 = some (buf, a) := by rw [hread]; exact h1
  have hmod : len % 256 = len := Nat.mod_eq_of_lt (by omega)
  refine ⟨buf, a, len, ht, h2, h3, fun k hk => by rw [h4 k hk, fill_zeroed_apply], h5, ?_⟩
  by_cases hnil : l = []
  · have h0 : (file_readline st.file).2.1 = 0 := by rw [hread, hnil]; rfl
    rw [stream_body_eof fw st h0]
    exact ⟨by simp, fun h => absurd hnil h⟩
  · have hn0 : (file_readline st.file).2.1 ≠ 0 := by
      rw [hread]
      exact fun h => hnil (List.length_eq_zero.mp h)
    by_cases hc : buf a = 59
    · rw [stream_body_comment fw st buf a hn0 ht hc]
      exact ⟨by simp [hc], fun _ h => absurd hc h⟩
    · rcases hr : throttle (st.serial.length + 1)
        (sum (stage st.win (len % 256)).line_lengths)
        { st with file := (file_readline st.file).2.2, win := stage st.win (len % 256),
                  trace := st.trace ++ [Ev.stage (len % 256)] } with ⟨s, st2⟩
      obtain ⟨evs, e1, e2, _, _⟩ := throttle_trace (st.serial.length + 1)
        (sum (stage st.win (len % 256)).line_lengths)
        { st with file := (file_readline st.file).2.2, win := stage st.win (len % 256),
                  trace := st.trace ++ [Ev.stage (len % 256)] }
      rw [hr] at e1
      simp only at e1
      have hw2 : writes st2.trace = writes st.trace := by
        rw [e1, writes_append, writes_append, e2]
        simp [writes]
      by_cases hs : s = Status.done
      · subst hs
        rw [stream_body_send fw st st2 buf a len hn0 ht hc h2 hr, hmod]
        refine ⟨?_, fun _ _ _ => rfl⟩
        simp only [writes_transmit, hw2]
        simp [hc]
      · rw [stream_body_stall fw st st2 buf a len s hn0 ht hc h2 hr hs]
        refine ⟨by simp [hw2], ?_⟩
        intro _ _ hsum
        rw [hmod] at hr
        rw [throttle_pass _ _ _ hsum] at hr
        exact absurd (congrArg Prod.fst hr).symm hs

/-! ## Claims C12, C13 and C14 -/

/-- C12: a pass through the loop body for a line whose trimmed form starts with
`';'` only advances the file: the state after it has the same window
(`line_lengths` and `lli`), the same `line_count`, the same pending read results
and the same record, so nothing is staged, read or written.  This holds whenever
the trimmed buffer starts with `';'`, and in particular for every text line of at
most 255 bytes whose trimmed form is a comment; e.g. for `"  ; move to home  "`
the run makes no write. -/
theorem comment_line_skipped (fw : List Nat → List (Option Nat)) (st : CState) :
    (∀ buf trimmed, (file_readline st.file).2.1 ≠ 0 →
      trim_whitespace (file_readline st.file).1 = some (buf, trimmed) → buf trimmed = 59 →
      stream_body fw st = (none, { st with file := (file_readline st.file).2.2 })) ∧
    (∀ l rest, (∀ c ∈ l, c ≠ 10 ∧ c ≠ 0) → l.length ≤ 255 → is_comment l = true →
      (st.file = l ++ 10 :: rest ∨ (st.file = l ∧ rest = [])) →
      stream_body fw st = (none, { st with file := rest })) ∧
    writes (controller fw
      [32, 32, 59, 32, 109, 111, 118, 101, 32, 116, 111, 32, 104, 111, 109, 101, 32, 32, 10]
      []).2.trace = [] := by
  refine ⟨fun buf trimmed h ht hc => stream_body_comment fw st buf trimmed h ht hc, ?_, rfl⟩
  intro l rest hl hlen hcom hfile
  have hread := file_readline_next st.file l rest (fun c hc => (hl c hc).1) hlen hfile
  obtain ⟨buf, a, h1, _, h3, _⟩ := trim_string_result l (fill zeroed 0 l)
    (fun c hc => (hl c hc).2) hlen (fun j _ => fill_zeroed_apply l j)
  have hne : l ≠ [] := by
    intro h
    rw [h] at hcom
    exact absurd hcom (by decide)
  have hn0 : (file_readline st.file).2.1 ≠ 0 := by
    rw [hread]
    exact fun h => hne (List.length_eq_zero.mp h)
  rw [stream_body_comment fw st buf a hn0 (by rw [hread]; exact h1) (h3.mpr hcom), hread]

theorem comment_line_skipped_witness :
    stream_body fw_ok
        ⟨[32, 32, 59, 32, 109, 111, 118, 101, 32, 116, 111, 32, 104, 111, 109, 101, 32, 32, 10],
          [], Window.init, 0, []⟩
      = (none, ⟨[], [], Window.init, 0, []⟩) :=
  (comment_line_skipped fw_ok
      ⟨[32, 32, 59, 32, 109, 111, 118, 101, 32, 116, 111, 32, 104, 111, 109, 101, 32, 32, 10],
        [], Window.init, 0, []⟩).2.1
    [32, 32, 59, 32, 109, 111, 118, 101, 32, 116, 111, 32, 104, 111, 109, 101, 32, 32] []
    (by decide) (by decide) (by decide) (Or.inl rfl)

theorem bytes_at_length (buf : Buf) (p n : Nat) : (bytes_at buf p n).length = n := by
  simp [bytes_at]

/-- C13: for every line of at most 255 bytes read from the command file,
`trim_whitespace` yields a trimmed command `cmd` (for a text line: the line
without its leading and trailing spaces); if the command is not a comment, the
pass through the loop body writes, when it gets to the write, exactly one payload,
the bytes of `cmd` followed by one byte `0x0A`, of length `strlen(cmd) + 1`, and
it writes nothing when it does not get there; it gets there whenever the staged
window sums to less than 127. -/
theorem outbound_framing (fw : List Nat → List (Option Nat)) (st : CState)
    (l rest : List Nat) (hl : ∀ c ∈ l, c ≠ 10) (hlen : l.length ≤ 255)
    (hfile : st.file = l ++ 10 :: rest ∨ (st.file = l ∧ rest = [])) :
    ∃ buf a cmd, trim_whitespace (file_readline st.file).1 = some (buf, a) ∧
      c_string buf a = some cmd ∧ strlen buf (256 - a) a = some cmd.length ∧
      ((∀ c ∈ l, c ≠ 0) → cmd = trim_spec l ∧ (buf a = 59 ↔ is_comment l = true)) ∧
      (buf a ≠ 59 →
        ((stream_body fw st).1 = none →
          writes (stream_body fw st).2.trace = writes st.trace ++ [cmd ++ [10]]) ∧
        ((stream_body fw st).1 ≠ none →
          writes (stream_body fw st).2.trace = writes st.trace) ∧
        (cmd ++ [10]).length = cmd.length + 1 ∧
        (l ≠ [] → sum (stage st.win cmd.length).line_lengths < 127 →
          (stream_body fw st).1 = none)) := by
  obtain ⟨buf, a, len, h1, h2, _, _, _, h6, h7⟩ := stream_body_writes fw st l rest hl hlen hfile
  have hread := file_readline_next st.file l rest hl hlen hfile
  refine ⟨buf, a, bytes_at buf a len, h1, ?_, ?_, ?_, ?_⟩
  · simp only [c_string, h2, Option.map_some']
  · rw [bytes_at_length]
    exact h2
  · intro hnul
    obtain ⟨b2, a2, g1, g2, g3, g4⟩ := trim_string_result l (fill zeroed 0 l) hnul hlen
      (fun j _ => fill_zeroed_apply l j)
    rw [hread] at h1
    rw [g1] at h1
    have hb : b2 = buf := congrArg Prod.fst (Option.some.inj h1)
    have ha : a2 = a := congrArg Prod.snd (Option.some.inj h1)
    subst hb
    subst ha
    rw [h2] at g2
    have hlen2 : len = (trim_spec l).length := Option.some.inj g2
    rw [hlen2]
    exact ⟨g4, g3⟩
  · intro hc
    rw [bytes_at_length]
    refine ⟨fun hs => ?_, fun hs => ?_, by simp [bytes_at_length], fun hne hsum => h7 hne hc hsum⟩
    · rw [h6, if_pos ⟨hs, hc⟩]
    · rw [h6, if_neg (fun h => hs h.1)]
      simp

theorem outbound_framing_witness :
    writes (stream_body fw_ok
        ⟨[32, 32, 71, 49, 32, 88, 49, 48, 32, 32, 10], [], Window.init, 0, []⟩).2.trace
      = [[71, 49, 32, 88, 49, 48, 10]] := by
  obtain ⟨buf, a, cmd, _, _, _, h4, h5⟩ := outbound_framing fw_ok
    ⟨[32, 32, 71, 49, 32, 88, 49, 48, 32, 32, 10], [], Window.init, 0, []⟩
    [32, 32, 71, 49, 32, 88, 49, 48, 32, 32] [] (by decide) (by decide) (Or.inl rfl)
  obtain ⟨hcmd, hcom⟩ := h4 (by decide)
  have hc : buf a ≠ 59 := fun h => absurd (hcom.mp h) (by decide)
  obtain ⟨g1, _, _, g4⟩ := h5 hc
  have hcmd2 : cmd = [71, 49, 32, 88, 49, 48] := by rw [hcmd]; decide
  subst hcmd2
  exact g1 (g4 (by decide) (by decide))

/-- C14 (as stated, refuted): the line `"G1\r"` of a file with CR LF line ends is
written as `"G1\r\n"`: the framed command contains the byte `0x0D`. -/
theorem cr_of_line_is_written :
    writes (controller fw_ok [71, 49, 13, 10] []).2.trace = [[71, 49, 13, 10]] ∧
      13 ∈ [71, 49, 13, 10] := by
  decide

/-- C14 (amended): the controller adds no carriage return of its own: for every
command-file line of at most 255 bytes that contains no byte `0x0D`, a pass
through the loop body writes at most one payload, and no payload it writes
contains the byte `0x0D`. -/
theorem no_cr_added (fw : List Nat → List (Option Nat)) (st : CState)
    (l rest : List Nat) (hl : ∀ c ∈ l, c ≠ 10) (hlen : l.length ≤ 255)
    (hfile : st.file = l ++ 10 :: rest ∨ (st.file = l ∧ rest = []))
    (hcr : ∀ c ∈ l, c ≠ 13) :
    ∃ extra, writes (stream_body fw st).2.trace = writes st.trace ++ extra ∧
      extra.length ≤ 1 ∧ ∀ p ∈ extra, 13 ∉ p := by
  obtain ⟨buf, a, len, _, _, h3, h4, _, h6, _⟩ := stream_body_writes fw st l rest hl hlen hfile
  refine ⟨_, h6, ?_, ?_⟩
  · split <;> simp
  · intro p hp
    split at hp
    · simp only [List.mem_singleton] at hp
      subst hp
      intro hmem
      rw [List.mem_append] at hmem
      rcases hmem with hm | hm
      · simp only [bytes_at, List.mem_map, List.mem_range] at hm
        obtain ⟨k, hk, hk2⟩ := hm
        rw [h4 k hk, List.getD_eq_getElem _ _ (by omega : a + k < l.length)] at hk2
        exact hcr _ (List.getElem_mem _) hk2
      · simp at hm
    · simp at hp

theorem no_cr_added_witness :
    ∃ extra, writes (stream_body fw_ok ⟨[71, 49, 10], [], Window.init, 0, []⟩).2.trace
        = writes [] ++ extra ∧ extra.length ≤ 1 ∧ ∀ p ∈ extra, 13 ∉ p :=
  no_cr_added fw_ok ⟨[71, 49, 10], [], Window.init, 0, []⟩ [71, 49] [] (by decide) (by decide)
    (Or.inl rfl) (by decide)

/-! ## Claim C16: the drain loop -/

theorem acknowledge_lli (w : Window) (h1 : 1 ≤ w.lli) (h2 : w.lli ≤ 255) :
    (acknowledge w).lli = w.lli - 1 := by
  simp only [acknowledge]
  omega

theorem drain_done : ∀ (fuel : Nat) (st : CState), st.win.lli ≤ 255 →
    (drain fuel st).1 = Status.done →
    (drain fuel st).2.win.lli = min st.win.lli 2 ∧
      ∃ rcs, (drain fuel st).2.trace = st.trace ++ polled rcs ∧
        (rcs.filter (fun rc => rc > 0)).length = st.win.lli - 2 ∧
        (drain fuel st).2.win = acknowledge^[st.win.lli - 2] st.win := by
  intro fuel
  induction fuel with
  | zero =>
    intro st _ h
    simp [drain] at h
  | succ f ih =>
    intro st hk hdone
    rw [drain] at hdone ⊢
    by_cases hl : st.win.lli > 2
    · rw [if_pos hl] at hdone ⊢
      cases hs : st.serial with
      | nil =>
        rw [hs] at hdone
        simp at hdone
      | cons e t =>
        rw [hs] at hdone
        simp only at hdone ⊢
        by_cases hrc : st.readline.1 > 0
        · rw [if_pos hrc] at hdone ⊢
          have hl2 : st.readline.2.ack.win.lli = st.win.lli - 1 :=
            acknowledge_lli st.win (by omega) hk
          obtain ⟨g1, rcs, g2, g3, g4⟩ := ih st.readline.2.ack (by rw [hl2]; omega) hdone
          refine ⟨by rw [g1, hl2]; omega, st.readline.1 :: rcs, ?_, ?_, ?_⟩
          · have hrc1 : 0 < (serial_readline st.serial).2.1 := hrc
            rw [g2]
            simp [polled, hrc1, CState.readline, CState.ack]
          · simp only [List.filter_cons, hrc, decide_True, if_true, List.length_cons, g3, hl2]
            omega
          · rw [g4, hl2, show st.win.lli - 2 = (st.win.lli - 1 - 2) + 1 by omega,
              Function.iterate_succ_apply]
            rfl
        · rw [if_neg hrc] at hdone ⊢
          obtain ⟨g1, rcs, g2, g3, g4⟩ := ih st.readline.2 hk hdone
          refine ⟨g1, st.readline.1 :: rcs, ?_, ?_, g4⟩
          · have hrc1 : ¬ 0 < (serial_readline st.serial).2.1 := hrc
            rw [g2]
            simp only [polled, CState.readline, gt_iff_lt, if_neg hrc1, List.append_assoc,
              List.singleton_append]
          · simp only [List.filter_cons, hrc, decide_False]
            exact g3
    · rw [if_neg hl]
      refine ⟨by simp only; omega, [], by simp [polled], by simp; omega, ?_⟩
      rw [show st.win.lli - 2 = 0 by omega]
      rfl

theorem acks_polled (rcs : List Nat) :
    acks (polled rcs) = (rcs.filter (fun rc => rc > 0)).length := by
  induction rcs with
  | nil => rfl
  | cons rc t ih =>
    by_cases h : rc > 0
    · simp [polled, h, acks, ih]
    · simp [polled, h, acks, ih]

/-- C16: if the drain loop, entered with `k` pending entries, terminates, it
ends with `min k 2` pending entries.  With `k <= 2` it leaves the state as it is
(no read, no acknowledge step); with `k > 2` what it does is a sequence of reads,
each followed by an acknowledge step exactly when its result is non-zero, with
exactly `k - 2` non-zero results and `k - 2` acknowledge steps in all.  With one
unit of fuel per pending read result the loop of the model never stops for lack
of fuel. -/
theorem drain_postcondition (fuel : Nat) (st : CState) (hk : st.win.lli ≤ 255)
    (hdone : (drain fuel st).1 = Status.done) :
    (drain fuel st).2.win.lli = min st.win.lli 2 ∧
      (st.win.lli ≤ 2 → (drain fuel st).2.trace = st.trace ∧
        (drain fuel st).2.serial = st.serial) ∧
      (∃ rcs, (drain fuel st).2.trace = st.trace ++ polled rcs ∧
        (rcs.filter (fun rc => rc > 0)).length = st.win.lli - 2 ∧
        acks (polled rcs) = st.win.lli - 2 ∧
        (drain fuel st).2.win = acknowledge^[st.win.lli - 2] st.win) ∧
      (drain (st.serial.length + 1) st).1 ≠ Status.fuel := by
  obtain ⟨h1, rcs, h2, h3, h4⟩ := drain_done fuel st hk hdone
  refine ⟨h1, ?_, ⟨rcs, h2, h3, by rw [acks_polled, h3], h4⟩, drain_fuel _ st (Nat.lt_succ_self _)⟩
  intro hle
  cases fuel with
  | zero => simp [drain] at hdone
  | succ f =>
    rw [drain, if_neg (by omega)]
    exact ⟨rfl, rfl⟩

theorem drain_postcondition_witness :
    (drain 10 ⟨[], [some 111, some 107, some 10, none, some 111, some 107, some 10],
        [3, 4, 5, 6].foldl stage Window.init, 4, []⟩).2.win.lli = min 4 2 :=
  (drain_postcondition 10 ⟨[], [some 111, some 107, some 10, none, some 111, some 107, some 10],
    [3, 4, 5, 6].foldl stage Window.init, 4, []⟩ (by decide) (by decide)).1

/-! ## Claims C15 and C18: runs on concrete files -/

set_option maxRecDepth 100000 in
/-- C15 (violated by the code): on the file made of a line of two spaces, a line
of 100 bytes `a` and a line of 100 bytes `b`, with a firmware whose first line
arrives only after the three reads that follow the writes have timed out, the
lengths staged are 0, 100 and 100, and each of the three writes is made with no
acknowledge step performed before it: the command `b` is written although it and
the unacknowledged command `a` add up to 200 bytes. -/
theorem throttle_skipped_after_blank_line :
    staged (controller fw_silent
        ([32, 32, 10] ++ List.replicate 100 97 ++ [10] ++ List.replicate 100 98 ++ [10])
        [none, none, none, some 111, some 107, some 10]).2.trace = [0, 100, 100] ∧
      acks_before_writes 0 (controller fw_silent
        ([32, 32, 10] ++ List.replicate 100 97 ++ [10] ++ List.replicate 100 98 ++ [10])
        [none, none, none, some 111, some 107, some 10]).2.trace = [0, 0, 0] ∧
      127 ≤ 100 + 100 := by
  decide

set_option maxRecDepth 100000 in
/-- C18 (violated by the code): for a line of 257 bytes `x` the 8-bit index of
`file_readline` wraps, every one of the 256 cells of the buffer ends up non-zero,
`file_readline` returns 1, and `trim_whitespace` runs `strlen` past the end of
the buffer: the model reports the out-of-bounds access. -/
theorem long_line_leaves_no_nul :
    (file_readline (List.replicate 257 120 ++ [10])).2.1 = 1 ∧
      (∀ j, j < 256 → (file_readline (List.replicate 257 120 ++ [10])).1 j ≠ 0) ∧
      strlen (file_readline (List.replicate 257 120 ++ [10])).1 256 0 = none ∧
      (trim_whitespace (file_readline (List.replicate 257 120 ++ [10])).1).isNone = true ∧
      (controller fw_ok (List.replicate 257 120 ++ [10]) []).1 = Status.fault := by
  decide

/-! ## Well-formed windows -/

theorem sum_wf (w : Window) (h : WF w) :
    sum w.line_lengths = ∑ j ∈ Finset.range w.lli, w.line_lengths j := by
  obtain ⟨h1, h2, h3⟩ := h
  rw [sum, sum_loop_eq w.line_lengths w.lli (by omega)
    (fun j hj => ⟨by have := h2 j hj; omega, by have := h2 j hj; omega⟩) h3 255 0 0
    (by omega) (by omega) (by omega), Finset.range_eq_Ico]
  simp

theorem range_sum_bounds (a : Buf) : ∀ (n : Nat), (∀ j, j < n → 1 ≤ a j ∧ a j ≤ 126) →
    n ≤ ∑ j ∈ Finset.range n, a j ∧ ∑ j ∈ Finset.range n, a j ≤ 126 * n := by
  intro n
  induction n with
  | zero => intro _; simp
  | succ n ih =>
    intro h
    rw [Finset.sum_range_succ]
    have h1 := h n (by omega)
    have h2 := ih (fun j hj => h j (by omega))
    omega

theorem wf_lli_le (w : Window) (h : WF w) (hs : sum w.line_lengths < 127) : w.lli ≤ 126 := by
  rw [sum_wf w h] at hs
  have := (range_sum_bounds w.line_lengths w.lli h.2.1).1
  omega

theorem wf_two_le (w : Window) (h : WF w) (hs : 127 ≤ sum w.line_lengths) : 2 ≤ w.lli := by
  rw [sum_wf w h] at hs
  have := (range_sum_bounds w.line_lengths w.lli h.2.1).2
  omega

theorem wf_init : WF Window.init :=
  ⟨by simp [Window.init], fun j hj => by simp [Window.init] at hj, fun _ _ _ => rfl⟩

theorem wf_stage (w : Window) (len : Nat) (h : WF w) (hl : w.lli ≤ 126)
    (h1 : 1 ≤ len) (h2 : len ≤ 126) :
    WF (stage w len) ∧ (stage w len).lli = w.lli + 1 ∧
      (stage w len).line_lengths ((stage w len).lli - 1) = len := by
  obtain ⟨_, g2, g3⟩ := h
  have hlli : (stage w len).lli = w.lli + 1 := by
    simp only [stage]
    omega
  refine ⟨⟨by rw [hlli]; omega, ?_, ?_⟩, hlli, ?_⟩
  · intro j hj
    rw [hlli] at hj
    simp only [stage, store]
    split
    · exact ⟨h1, h2⟩
    · exact g2 j (by omega)
  · intro j hj1 hj2
    rw [hlli] at hj1
    simp only [stage, store]
    rw [if_neg (by omega)]
    exact g3 j (by omega) hj2
  · rw [hlli]
    simp [stage, store]

theorem wf_acknowledge (w : Window) (h : WF w) (hl : 1 ≤ w.lli) :
    WF (acknowledge w) ∧ (acknowledge w).lli = w.lli - 1 ∧
      sum (acknowledge w).line_lengths ≤ sum w.line_lengths ∧
      (2 ≤ w.lli → (acknowledge w).line_lengths ((acknowledge w).lli - 1)
        = w.line_lengths (w.lli - 1)) := by
  obtain ⟨g1, g2, g3⟩ := h
  have hlli : (acknowledge w).lli = w.lli - 1 := acknowledge_lli w hl (by omega)
  have hwf : WF (acknowledge w) := by
    refine ⟨by rw [hlli]; omega, ?_, ?_⟩
    · intro j hj
      rw [hlli] at hj
      simp only [acknowledge, memmove_down]
      rw [if_pos (by omega)]
      exact g2 (j + 1) (by omega)
    · intro j hj1 hj2
      rw [hlli] at hj1
      simp only [acknowledge, memmove_down]
      split
      · exact g3 (j + 1) (by omega) (by omega)
      · exact g3 j (by omega) hj2
  refine ⟨hwf, hlli, ?_, ?_⟩
  · rw [sum_wf _ hwf, sum_wf w ⟨g1, g2, g3⟩, hlli]
    obtain ⟨n, hn⟩ : ∃ n, w.lli = n + 1 := ⟨w.lli - 1, by omega⟩
    rw [hn, Nat.add_sub_cancel, Finset.sum_range_succ']
    have : ∑ j ∈ Finset.range n, (acknowledge w).line_lengths j
        = ∑ j ∈ Finset.range n, w.line_lengths (j + 1) := by
      apply Finset.sum_congr rfl
      intro j hj
      simp only [Finset.mem_range] at hj
      simp only [acknowledge, memmove_down]
      rw [if_pos (by omega)]
    rw [this]
    omega
  · intro h2
    rw [hlli]
    simp only [acknowledge, memmove_down]
    rw [if_pos (by omega)]
    congr 1
    omega

/-! ## Safe records -/

theorem safe_wf : ∀ (tr : List Ev) (w : Window), Safe w tr → WF w := by
  intro tr w h
  cases tr with
  | nil => exact h
  | cons e t => exact h.1

theorem safe_append : ∀ (a b : List Ev) (w : Window),
    Safe w (a ++ b) ↔ Safe w a ∧ Safe (replay w a) b := by
  intro a
  induction a with
  | nil =>
    intro b w
    exact ⟨fun h => ⟨safe_wf b w h, h⟩, fun h => h.2⟩
  | cons e t ih =>
    intro b w
    show (WF w ∧ StepOK w e ∧ Safe (apply_ev w e) (t ++ b))
      ↔ (WF w ∧ StepOK w e ∧ Safe (apply_ev w e) t) ∧ Safe (replay (apply_ev w e) t) b
    rw [ih b (apply_ev w e)]
    tauto

theorem safe_final (tr : List Ev) (w : Window) (h : Safe w tr) : WF (replay w tr) := by
  have := (safe_append tr [] w).mp (by simpa using h)
  exact this.2

/-! ## The loops keep the window well-formed -/

theorem throttle_safe : ∀ (fuel s : Nat) (st : CState), WF st.win → 1 ≤ st.win.lli →
    s = sum st.win.line_lengths →
    ∃ evs, (throttle fuel s st).2.trace = st.trace ++ evs ∧
      (throttle fuel s st).2.win = replay st.win evs ∧ Safe st.win evs ∧
      1 ≤ (throttle fuel s st).2.win.lli ∧
      (throttle fuel s st).2.win.line_lengths ((throttle fuel s st).2.win.lli - 1)
        = st.win.line_lengths (st.win.lli - 1) ∧
      ((throttle fuel s st).1 = Status.done →
        sum (throttle fuel s st).2.win.line_lengths < 127) := by
  intro fuel
  induction fuel with
  | zero =>
    intro s st hwf hl _
    exact ⟨[], by simp [throttle], rfl, hwf, hl, rfl, by simp [throttle]⟩
  | succ f ih =>
    intro s st hwf hl hs
    rw [throttle]
    by_cases hge : s ≥ 127
    · rw [if_pos hge]
      cases hser : st.serial with
      | nil => exact ⟨[], by simp, rfl, hwf, hl, rfl, by simp⟩
      | cons e t =>
        simp only
        have h2 : 2 ≤ st.win.lli := wf_two_le st.win hwf (by omega)
        by_cases hrc : st.readline.1 > 0
        · rw [if_pos hrc]
          obtain ⟨a1, a2, _, a4⟩ := wf_acknowledge st.win hwf hl
          have hwin : st.readline.2.ack.win = acknowledge st.win := rfl
          obtain ⟨evs, g1, g2, g3, g4, g5, g6⟩ := ih (sum st.readline.2.ack.win.line_lengths)
            st.readline.2.ack (by rw [hwin]; exact a1) (by rw [hwin, a2]; omega) rfl
          refine ⟨Ev.read st.readline.1 :: Ev.ack :: evs, ?_, ?_, ?_, g4, ?_, g6⟩
          · rw [g1]
            simp [CState.readline, CState.ack]
          · rw [g2]
            rfl
          · exact ⟨hwf, trivial, hwf, by show st.win.lli ≠ 0; omega, g3⟩
          · rw [g5, hwin]
            exact a4 h2
        · rw [if_neg hrc]
          have hwin : st.readline.2.win = st.win := rfl
          obtain ⟨evs, g1, g2, g3, g4, g5, g6⟩ := ih s st.readline.2 (by rw [hwin]; exact hwf)
            (by rw [hwin]; exact hl) (by rw [hwin]; exact hs)
          refine ⟨Ev.read st.readline.1 :: evs, ?_, ?_, ?_, g4, ?_, g6⟩
          · rw [g1]
            simp [CState.readline]
          · rw [g2]
            rfl
          · exact ⟨hwf, trivial, g3⟩
          · rw [g5, hwin]
    · rw [if_neg hge]
      exact ⟨[], by simp, rfl, hwf, hl, rfl, fun _ => by simp only; omega⟩

theorem transmit_safe (fw : List Nat → List (Option Nat)) (buf : Buf) (a len : Nat)
    (st : CState) (hwf : WF st.win) (hs : sum st.win.line_lengths < 127) (hl : 1 ≤ st.win.lli)
    (hown : st.win.line_lengths (st.win.lli - 1) = len) :
    ∃ evs, (transmit fw buf a len st).trace = st.trace ++ evs ∧
      (transmit fw buf a len st).win = replay st.win evs ∧ Safe st.win evs ∧
      staged evs = [] ∧ sum (transmit fw buf a len st).win.line_lengths < 127 := by
  obtain ⟨rc, h1, h2⟩ := transmit_trace fw buf a len st
  have hle := wf_lli_le st.win hwf hs
  obtain ⟨a1, _, a3, _⟩ := wf_acknowledge st.win hwf hl
  have hstep : StepOK st.win
      (Ev.write (bytes_at (store buf (a + len) 10) a (len + 1)) st.win.pending) :=
    ⟨hl, hle, rfl, by rw [hown, bytes_at_length]⟩
  refine ⟨_, h1, ?_, ?_, ?_, ?_⟩
  · rw [h2]
    by_cases hrc : rc > 0 <;> simp [hrc, replay, apply_ev]
  · by_cases hrc : rc > 0
    · rw [if_pos hrc]
      exact ⟨hwf, hstep, hwf, trivial, hwf, by show st.win.lli ≠ 0; omega, a1⟩
    · rw [if_neg hrc]
      exact ⟨hwf, hstep, hwf, trivial, hwf⟩
  · by_cases hrc : rc > 0 <;> simp [hrc, staged]
  · rw [h2]
    by_cases hrc : rc > 0
    · rw [if_pos hrc]
      omega
    · rw [if_neg hrc]
      exact hs

/-! ## The streaming loop keeps the window well-formed -/

theorem stream_loop_ext (fw : List Nat → List (Option Nat)) : ∀ (fuel : Nat) (st : CState),
    ∃ evs, (stream_loop fw fuel st).2.trace = st.trace ++ evs := by
  intro fuel
  induction fuel with
  | zero => intro st; exact ⟨[], by simp [stream_loop]⟩
  | succ f ih =>
    intro st
    by_cases h0 : (file_readline st.file).2.1 = 0
    · rw [stream_loop_eof fw f st h0]
      exact ⟨[], by simp⟩
    · cases ht : trim_whitespace (file_readline st.file).1 with
      | none =>
        rw [stream_loop_fault_trim fw f st h0 ht]
        exact ⟨[], by simp⟩
      | some r =>
        obtain ⟨buf, a⟩ := r
        by_cases hc : buf a = 59
        · rw [stream_loop_comment fw f st buf a h0 ht hc]
          exact ih _
        · cases hlen : strlen buf (256 - a) a with
          | none =>
            rw [stream_loop_fault_strlen fw f st buf a h0 ht hc hlen]
            exact ⟨[], by simp⟩
          | some len =>
            obtain ⟨e1, g1, _, _, _⟩ := throttle_trace (st.serial.length + 1)
              (sum (stage st.win (len % 256)).line_lengths)
              { st with file := (file_readline st.file).2.2, win := stage st.win (len % 256),
                        trace := st.trace ++ [Ev.stage (len % 256)] }
            rcases hr : throttle (st.serial.length + 1)
              (sum (stage st.win (len % 256)).line_lengths)
              { st with file := (file_readline st.file).2.2, win := stage st.win (len % 256),
                        trace := st.trace ++ [Ev.stage (len % 256)] } with ⟨s, st2⟩
            rw [hr] at g1
            simp only at g1
            by_cases hs : s = Status.done
            · subst hs
              rw [stream_loop_send fw f st st2 buf a len h0 ht hc hlen hr]
              obtain ⟨e3, g3⟩ := ih (transmit fw buf a (len % 256) st2)
              obtain ⟨rc, g2, _⟩ := transmit_trace fw buf a (len % 256) st2
              rw [g3, g2, g1]
              simp only [List.append_assoc]
              exact ⟨_, rfl⟩
            · rw [stream_loop_stall fw f st st2 buf a len s h0 ht hc hlen hr hs]
              exact ⟨[Ev.stage (len % 256)] ++ e1, by rw [g1]; simp only [List.append_assoc]⟩

theorem staged_stage_mem (pre post : List Ev) (len : Nat) :
    len ∈ staged (pre ++ Ev.stage len :: post) := by
  rw [staged_append]
  simp [staged]

theorem stream_loop_safe (fw : List Nat → List (Option Nat)) : ∀ (fuel : Nat) (st : CState),
    WF st.win → sum st.win.line_lengths < 127 →
    (∀ len ∈ staged (stream_loop fw fuel st).2.trace, 1 ≤ len ∧ len ≤ 126) →
    ∃ evs, (stream_loop fw fuel st).2.trace = st.trace ++ evs ∧
      (stream_loop fw fuel st).2.win = replay st.win evs ∧ Safe st.win evs := by
  intro fuel
  induction fuel with
  | zero => intro st hwf _ _; exact ⟨[], by simp [stream_loop], rfl, hwf⟩
  | succ f ih =>
    intro st hwf hsum hH
    by_cases h0 : (file_readline st.file).2.1 = 0
    · rw [stream_loop_eof fw f st h0]
      exact ⟨[], by simp, rfl, hwf⟩
    · cases ht : trim_whitespace (file_readline st.file).1 with
      | none =>
        rw [stream_loop_fault_trim fw f st h0 ht]
        exact ⟨[], by simp, rfl, hwf⟩
      | some r =>
        obtain ⟨buf, a⟩ := r
        by_cases hc : buf a = 59
        · rw [stream_loop_comment fw f st buf a h0 ht hc] at hH ⊢
          exact ih _ hwf hsum hH
        · cases hlen : strlen buf (256 - a) a with
          | none =>
            rw [stream_loop_fault_strlen fw f st buf a h0 ht hc hlen]
            exact ⟨[], by simp, rfl, hwf⟩
          | some len =>
            obtain ⟨e0, q1, _, _, _⟩ := throttle_trace (st.serial.length + 1)
              (sum (stage st.win (len % 256)).line_lengths)
              { st with file := (file_readline st.file).2.2, win := stage st.win (len % 256),
                        trace := st.trace ++ [Ev.stage (len % 256)] }
            rcases hr : throttle (st.serial.length + 1)
              (sum (stage st.win (len % 256)).line_lengths)
              { st with file := (file_readline st.file).2.2, win := stage st.win (len % 256),
                        trace := st.trace ++ [Ev.stage (len % 256)] } with ⟨s, st2⟩
            rw [hr] at q1
            simp only at q1
            have hbound : 1 ≤ len % 256 ∧ len % 256 ≤ 126 := by
              by_cases hs : s = Status.done
              · subst hs
                rw [stream_loop_send fw f st st2 buf a len h0 ht hc hlen hr] at hH
                obtain ⟨e3, g3⟩ := stream_loop_ext fw f (transmit fw buf a (len % 256) st2)
                obtain ⟨rc, g2, _⟩ := transmit_trace fw buf a (len % 256) st2
                apply hH
                rw [g3, g2, q1]
                simp only [List.append_assoc, List.singleton_append]
                exact staged_stage_mem _ _ _
              · rw [stream_loop_stall fw f st st2 buf a len s h0 ht hc hlen hr hs] at hH
                apply hH
                simp only
                rw [q1]
                simp only [List.append_assoc, List.singleton_append]
                exact staged_stage_mem _ _ _
            have hle := wf_lli_le st.win hwf hsum
            obtain ⟨w1, w2, w3⟩ := wf_stage st.win (len % 256) hwf hle hbound.1 hbound.2
            obtain ⟨e1, g1, g2, g3, g4, g5, g6⟩ := throttle_safe (st.serial.length + 1)
              (sum (stage st.win (len % 256)).line_lengths)
              { st with file := (file_readline st.file).2.2, win := stage st.win (len % 256),
                        trace := st.trace ++ [Ev.stage (len % 256)] } w1 (by simp only; omega) rfl
            rw [hr] at g1 g2 g4 g5 g6
            simp only at g1 g2 g4 g5 g6
            have hsafe1 : Safe st.win ([Ev.stage (len % 256)] ++ e1) := by
              rw [safe_append]
              exact ⟨⟨hwf, by show st.win.lli ≠ 255; omega, w1⟩, g3⟩
            by_cases hs : s = Status.done
            · subst hs
              rw [stream_loop_send fw f st st2 buf a len h0 ht hc hlen hr] at hH ⊢
              have hwf2 : WF st2.win := by
                rw [g2]
                exact safe_final _ _ g3
              obtain ⟨e2, t1, t2, t3, _, t5⟩ := transmit_safe fw buf a (len % 256) st2 hwf2
                (g6 rfl) g4 (by rw [g5]; exact w3)
              have hwf3 : WF (transmit fw buf a (len % 256) st2).win := by
                rw [t2]
                exact safe_final _ _ t3
              obtain ⟨e3, u1, u2, u3⟩ := ih (transmit fw buf a (len % 256) st2) hwf3 t5 hH
              refine ⟨([Ev.stage (len % 256)] ++ e1) ++ e2 ++ e3, ?_, ?_, ?_⟩
              · rw [u1, t1, g1]
                simp only [List.append_assoc]
              · rw [u2, t2, g2, replay_append, replay_append]
                rfl
              · rw [safe_append, safe_append]
                refine ⟨⟨hsafe1, ?_⟩, ?_⟩
                · have : replay st.win ([Ev.stage (len % 256)] ++ e1) = st2.win := by
                    rw [g2]
                    rfl
                  rw [this]
                  exact t3
                · have : replay st.win ([Ev.stage (len % 256)] ++ e1 ++ e2)
                      = (transmit fw buf a (len % 256) st2).win := by
                    rw [t2, g2, replay_append]
                    rfl
                  rw [this]
                  exact u3
            · rw [stream_loop_stall fw f st st2 buf a len s h0 ht hc hlen hr hs]
              refine ⟨[Ev.stage (len % 256)] ++ e1, ?_, ?_, hsafe1⟩
              · simp only
                rw [g1]
                simp only [List.append_assoc]
              · simp only
                rw [g2]
                rfl

/-! ## The whole run keeps the window well-formed -/

theorem drain_safe : ∀ (fuel : Nat) (st : CState), WF st.win →
    ∃ evs, (drain fuel st).2.trace = st.trace ++ evs ∧
      (drain fuel st).2.win = replay st.win evs ∧ Safe st.win evs ∧ staged evs = [] := by
  intro fuel
  induction fuel with
  | zero => intro st hwf; exact ⟨[], by simp [drain], rfl, hwf, rfl⟩
  | succ f ih =>
    intro st hwf
    rw [drain]
    by_cases hl : st.win.lli > 2
    · rw [if_pos hl]
      cases hser : st.serial with
      | nil => exact ⟨[], by simp, rfl, hwf, rfl⟩
      | cons e t =>
        simp only
        by_cases hrc : st.readline.1 > 0
        · rw [if_pos hrc]
          obtain ⟨a1, _, _, _⟩ := wf_acknowledge st.win hwf (by omega)
          have hwin : st.readline.2.ack.win = acknowledge st.win := rfl
          obtain ⟨evs, g1, g2, g3, g4⟩ := ih st.readline.2.ack (by rw [hwin]; exact a1)
          refine ⟨Ev.read st.readline.1 :: Ev.ack :: evs, ?_, ?_, ?_, ?_⟩
          · rw [g1]
            simp [CState.readline, CState.ack]
          · rw [g2]
            rfl
          · exact ⟨hwf, trivial, hwf, by show st.win.lli ≠ 0; omega, g3⟩
          · simp [staged, g4]
        · rw [if_neg hrc]
          have hwin : st.readline.2.win = st.win := rfl
          obtain ⟨evs, g1, g2, g3, g4⟩ := ih st.readline.2 (by rw [hwin]; exact hwf)
          refine ⟨Ev.read st.readline.1 :: evs, ?_, ?_, ?_, ?_⟩
          · rw [g1]
            simp [CState.readline]
          · rw [g2]
            rfl
          · exact ⟨hwf, trivial, g3⟩
          · simp [staged, g4]
    · rw [if_neg hl]
      exact ⟨[], by simp, rfl, hwf, rfl⟩

theorem drain_ext : ∀ (fuel : Nat) (st : CState),
    ∃ e, (drain fuel st).2.trace = st.trace ++ e := by
  intro fuel
  induction fuel with
  | zero => intro st; exact ⟨[], by simp [drain]⟩
  | succ k ih =>
    intro st
    rw [drain]
    split
    · cases st.serial with
      | nil => exact ⟨[], by simp⟩
      | cons e t =>
        simp only
        split
        · obtain ⟨e2, h2⟩ := ih st.readline.2.ack
          exact ⟨[Ev.read st.readline.1, Ev.ack] ++ e2, by
            rw [h2]; simp [CState.readline, CState.ack]⟩
        · obtain ⟨e2, h2⟩ := ih st.readline.2
          exact ⟨[Ev.read st.readline.1] ++ e2, by rw [h2]; simp [CState.readline]⟩
    · exact ⟨[], by simp⟩

theorem sum_init : sum Window.init.line_lengths = 0 := by
  simp [sum, sum_loop, Window.init, zeroed]

theorem controller_safe (fw : List Nat → List (Option Nat)) (file : List Nat)
    (serial : List (Option Nat))
    (hlen : ∀ len ∈ staged (controller fw file serial).2.trace, 1 ≤ len ∧ len ≤ 126) :
    Safe Window.init (controller fw file serial).2.trace ∧
      (controller fw file serial).2.win = replay Window.init (controller fw file serial).2.trace := by
  rcases hr : stream_loop fw (file.length + 1) ⟨file, serial, Window.init, 0, []⟩ with ⟨s, st⟩
  have hsafe := stream_loop_safe fw (file.length + 1) ⟨file, serial, Window.init, 0, []⟩ wf_init
    (by rw [sum_init]; omega)
  rw [hr] at hsafe
  simp only [List.nil_append] at hsafe
  by_cases hs : s = Status.done
  · subst hs
    have hc : controller fw file serial = drain (st.serial.length + 1) st := by
      simp only [controller, hr]
    rw [hc] at hlen ⊢
    have hd := drain_safe (st.serial.length + 1) st
    have hH : ∀ len ∈ staged st.trace, 1 ≤ len ∧ len ≤ 126 := by
      intro len hmem
      apply hlen
      have := drain_ext (st.serial.length + 1) st
      obtain ⟨e, he⟩ := this
      rw [he, staged_append]
      exact List.mem_append_left _ hmem
    obtain ⟨e1, a1, a2, a3⟩ := hsafe hH
    obtain ⟨e2, b1, b2, b3, _⟩ := hd (by rw [a2]; exact safe_final _ _ a3)
    rw [b1, b2, a1, a2, replay_append]
    refine ⟨?_, rfl⟩
    rw [safe_append]
    exact ⟨a3, by rw [← a2]; exact b3⟩
  · have hc : controller fw file serial = (s, st) := by
      simp only [controller, hr]
      cases s <;> first | rfl | exact absurd rfl hs
    rw [hc] at hlen ⊢
    obtain ⟨e1, a1, a2, a3⟩ := hsafe hlen
    simp only
    rw [a1, a2]
    exact ⟨a3, rfl⟩

/-! ## Claims C17 and C19 -/

theorem safe_split (w : Window) (pre rest : List Ev) (h : Safe w (pre ++ rest)) :
    WF (replay w pre) ∧ ∀ e t, rest = e :: t → StepOK (replay w pre) e := by
  have h2 := ((safe_append pre rest w).mp h).2
  refine ⟨safe_wf _ _ h2, ?_⟩
  intro e t hrest
  rw [hrest] at h2
  exact h2.2.1

theorem pending_sum (a : Buf) : ∀ (n : Nat),
    (bytes_at a 0 n).sum = ∑ j ∈ Finset.range n, a j := by
  intro n
  induction n with
  | zero => simp [bytes_at]
  | succ n ih =>
    rw [bytes_at_succ, List.sum_append, ih, Finset.sum_range_succ]
    simp

set_option maxRecDepth 100000 in
/-- C17 (as stated, refuted): for a command of 127 bytes with one firmware line
waiting, the throttle loop acknowledges away the entry staged for the command
itself: the command is written while the window is empty (`lli == 0`). -/
theorem reservation_popped_for_long_command :
    staged (controller fw_silent (List.replicate 127 97 ++ [10])
        [some 111, some 107, some 10]).2.trace = [127] ∧
      acks_before_writes 0 (controller fw_silent (List.replicate 127 97 ++ [10])
        [some 111, some 107, some 10]).2.trace = [1] ∧
      tx_pending (controller fw_silent (List.replicate 127 97 ++ [10])
        [some 111, some 107, some 10]).2.trace = [[]] := by
  decide

/-- C17 (amended): in a run in which every staged command length lies in 1..126,
at every write the window on which it is made (the window obtained by replaying
the steps recorded before the write, which is the snapshot recorded with the
write) has `lli >= 1`, and its newest entry `line_lengths[lli - 1]` is the length
of the command written, i.e. the payload length minus the terminator. -/
theorem reservation_at_write (fw : List Nat → List (Option Nat)) (file : List Nat)
    (serial : List (Option Nat))
    (hlen : ∀ len ∈ staged (controller fw file serial).2.trace, 1 ≤ len ∧ len ≤ 126)
    (pre rest : List Ev) (payload pending : List Nat)
    (hsplit : (controller fw file serial).2.trace = pre ++ Ev.write payload pending :: rest) :
    1 ≤ (replay Window.init pre).lli ∧
      (replay Window.init pre).line_lengths ((replay Window.init pre).lli - 1) + 1
        = payload.length ∧
      pending = (replay Window.init pre).pending := by
  have h := (controller_safe fw file serial hlen).1
  rw [hsplit] at h
  obtain ⟨h1, _, h3, h4⟩ := (safe_split Window.init pre _ h).2 _ _ rfl
  exact ⟨h1, h4, h3⟩

theorem reservation_at_write_witness :
    1 ≤ (replay Window.init [Ev.stage 2]).lli ∧
      (replay Window.init [Ev.stage 2]).line_lengths ((replay Window.init [Ev.stage 2]).lli - 1)
        + 1 = [71, 49, 10].length ∧
      [2] = (replay Window.init [Ev.stage 2]).pending :=
  reservation_at_write fw_ok [71, 49, 10] [] (by decide) [Ev.stage 2] [Ev.read 3, Ev.ack]
    [71, 49, 10] [2] (by decide)

/-- C19: in a run in which every staged command length lies in 1..126, for every
firmware and every sequence of read results, the window of the final state is
the replay of the recorded steps, and at every point of the record (after the
steps `pre`, before the steps `rest`) the window has at most 127 entries, each in
1..126, its slots from `lli` on are zero, and `sum` equals the sum of its first
`lli` entries; no stage is made at `lli == 255`, no acknowledge step at
`lli == 0`, and at every write, i.e. after each throttle loop, `1 <= lli <= 126`. -/
theorem window_invariant (fw : List Nat → List (Option Nat)) (file : List Nat)
    (serial : List (Option Nat))
    (hlen : ∀ len ∈ staged (controller fw file serial).2.trace, 1 ≤ len ∧ len ≤ 126) :
    (controller fw file serial).2.win
        = replay Window.init (controller fw file serial).2.trace ∧
      ∀ pre rest, (controller fw file serial).2.trace = pre ++ rest →
        (replay Window.init pre).lli ≤ 127 ∧
        (∀ j, j < (replay Window.init pre).lli →
          1 ≤ (replay Window.init pre).line_lengths j ∧
          (replay Window.init pre).line_lengths j ≤ 126) ∧
        (∀ j, (replay Window.init pre).lli ≤ j → j < 256 →
          (replay Window.init pre).line_lengths j = 0) ∧
        sum (replay Window.init pre).line_lengths = (replay Window.init pre).pending.sum ∧
        (∀ len t, rest = Ev.stage len :: t → (replay Window.init pre).lli ≠ 255) ∧
        (∀ t, rest = Ev.ack :: t → (replay Window.init pre).lli ≠ 0) ∧
        (∀ payload pending t, rest = Ev.write payload pending :: t →
          1 ≤ (replay Window.init pre).lli ∧ (replay Window.init pre).lli ≤ 126) := by
  obtain ⟨h, hwin⟩ := controller_safe fw file serial hlen
  refine ⟨hwin, ?_⟩
  intro pre rest hsplit
  rw [hsplit] at h
  obtain ⟨hwf, hstep⟩ := safe_split Window.init pre rest h
  refine ⟨hwf.1, hwf.2.1, hwf.2.2, ?_, ?_, ?_, ?_⟩
  · rw [sum_wf _ hwf, Window.pending, pending_sum]
  · intro len t hr
    exact hstep _ _ hr
  · intro t hr
    exact hstep _ _ hr
  · intro payload pending t hr
    have := hstep _ _ hr
    exact ⟨this.1, this.2.1⟩

theorem window_invariant_witness :
    (replay Window.init [Ev.stage 2, Ev.write [71, 49, 10] [2], Ev.read 3]).lli ≠ 0 ∧
      sum (replay Window.init [Ev.stage 2]).line_lengths
        = (replay Window.init [Ev.stage 2]).pending.sum :=
  have h := (window_invariant fw_ok [71, 49, 10, 71, 50, 10] [] (by decide)).2
  ⟨(h [Ev.stage 2, Ev.write [71, 49, 10] [2], Ev.read 3]
      [Ev.ack, Ev.stage 2, Ev.write [71, 50, 10] [2], Ev.read 3, Ev.ack] (by decide)).2.2.2.2.2.1
      _ rfl,
    (h [Ev.stage 2]
      [Ev.write [71, 49, 10] [2], Ev.read 3, Ev.ack, Ev.stage 2, Ev.write [71, 50, 10] [2],
        Ev.read 3, Ev.ack] (by decide)).2.2.2.1⟩

/-! ## Claim C8: one acknowledge step of the controller per firmware line -/

theorem serial_acks_fuel : ∀ (f f1 : Nat) (s : List (Option Nat)), s.length ≤ f →
    s.length ≤ f1 → serial_acks f s = serial_acks f1 s := by
  intro f
  induction f with
  | zero =>
    intro f1 s h _
    have : s = [] := List.length_eq_zero.mp (by omega)
    subst this
    rw [serial_acks_nil, serial_acks_nil]
  | succ f ih =>
    intro f1 s h h1
    cases s with
    | nil => rw [serial_acks_nil, serial_acks_nil]
    | cons e t =>
      obtain ⟨g, rfl⟩ : ∃ g, f1 = g + 1 := ⟨f1 - 1, by simp only [List.length_cons] at h1; omega⟩
      have hlt := serial_readline_rest_lt e t
      rw [serial_acks, serial_acks, ih g _ (by omega) (by omega)]

theorem serial_acks_step (F : Nat) (s : List (Option Nat)) (h : s.length ≤ F) :
    serial_acks F s
      = (if (serial_readline s).2.1 > 0 then 1 else 0) + serial_acks F (serial_readline s).2.2 := by
  cases s with
  | nil =>
    rw [serial_acks_nil]
    simp [serial_readline, serial_readline_loop, serial_acks_nil]
  | cons e t =>
    obtain ⟨g, rfl⟩ : ∃ g, F = g + 1 := ⟨F - 1, by simp only [List.length_cons] at h; omega⟩
    have hlt := serial_readline_rest_lt e t
    rw [serial_acks, serial_acks_fuel g (g + 1) _ (by omega) (by omega)]

theorem reads_nonzero_append (t u : List Ev) :
    reads_nonzero (t ++ u) = reads_nonzero t + reads_nonzero u := by
  induction t with
  | nil => simp [reads_nonzero]
  | cons e t ih => cases e <;> simp [reads_nonzero, ih]; omega

theorem balance_refl (F : Nat) (st : CState) : AckBalance F st st :=
  ⟨Nat.le_refl _, rfl, rfl⟩

theorem balance_trans (F : Nat) (a b c : CState) (h1 : AckBalance F a b)
    (h2 : AckBalance F b c) : AckBalance F a c := by
  obtain ⟨a1, a2, a3⟩ := h1
  obtain ⟨b1, b2, b3⟩ := h2
  exact ⟨by omega, by omega, by omega⟩

theorem readline_rest_le (st : CState) : st.readline.2.serial.length ≤ st.serial.length := by
  simp only [CState.readline, serial_readline]
  exact serial_loop_rest_le _ _ _

theorem balance_read_ack (F : Nat) (st : CState) (hF : st.serial.length ≤ F)
    (hrc : st.readline.1 > 0) : AckBalance F st st.readline.2.ack := by
  have hstep := serial_acks_step F st.serial hF
  have hrc1 : (serial_readline st.serial).2.1 > 0 := hrc
  rw [if_pos hrc1] at hstep
  refine ⟨readline_rest_le st, ?_, ?_⟩
  · simp only [CState.readline, CState.ack, acks_append, acks]
    omega
  · simp only [CState.readline, CState.ack, acks_append, reads_nonzero_append, acks,
      reads_nonzero, if_pos hrc1]
    omega

theorem balance_read_idle (F : Nat) (st : CState) (hF : st.serial.length ≤ F)
    (hrc : ¬ st.readline.1 > 0) : AckBalance F st st.readline.2 := by
  have hstep := serial_acks_step F st.serial hF
  have hrc1 : ¬ (serial_readline st.serial).2.1 > 0 := hrc
  rw [if_neg hrc1] at hstep
  refine ⟨readline_rest_le st, ?_, ?_⟩
  · simp only [CState.readline, acks_append, acks]
    omega
  · simp only [CState.readline, acks_append, reads_nonzero_append, acks,
      reads_nonzero, if_neg hrc1]
    omega

theorem throttle_balance (F : Nat) : ∀ (fuel s : Nat) (st : CState), st.serial.length ≤ F →
    AckBalance F st (throttle fuel s st).2 := by
  intro fuel
  induction fuel with
  | zero => intro s st _; exact balance_refl F st
  | succ f ih =>
    intro s st hF
    rw [throttle]
    split
    · cases hs : st.serial with
      | nil => exact balance_refl F st
      | cons e t =>
        simp only
        split
        · rename_i hrc
          have h1 := balance_read_ack F st hF hrc
          exact balance_trans F _ _ _ h1 (ih _ _ (by have := h1.1; omega))
        · rename_i hrc
          have h1 := balance_read_idle F st hF hrc
          exact balance_trans F _ _ _ h1 (ih _ _ (by have := h1.1; omega))
    · exact balance_refl F st

theorem drain_balance (F : Nat) : ∀ (fuel : Nat) (st : CState), st.serial.length ≤ F →
    AckBalance F st (drain fuel st).2 := by
  intro fuel
  induction fuel with
  | zero => intro st _; exact balance_refl F st
  | succ f ih =>
    intro st hF
    rw [drain]
    split
    · cases hs : st.serial with
      | nil => exact balance_refl F st
      | cons e t =>
        simp only
        split
        · rename_i hrc
          have h1 := balance_read_ack F st hF hrc
          exact balance_trans F _ _ _ h1 (ih _ (by have := h1.1; omega))
        · rename_i hrc
          have h1 := balance_read_idle F st hF hrc
          exact balance_trans F _ _ _ h1 (ih _ (by have := h1.1; omega))
    · exact balance_refl F st

theorem balance_note (F : Nat) (st : CState) (e : Ev) (he : acks [e] = 0)
    (hr : reads_nonzero [e] = 0) (file : List Nat) (win : Window) (n : Nat) :
    AckBalance F st ⟨file, st.serial, win, n, st.trace ++ [e]⟩ := by
  refine ⟨Nat.le_refl _, ?_, ?_⟩
  · simp only [acks_append, he]
    omega
  · simp only [acks_append, reads_nonzero_append, he, hr]
    omega

theorem transmit_balance (F : Nat) (buf : Buf) (a len : Nat) (st : CState)
    (hF : st.serial.length ≤ F) : AckBalance F st (transmit fw_silent buf a len st) := by
  have h0 := balance_note F st
    (Ev.write (bytes_at (store buf (a + len) 10) a (len + 1)) st.win.pending) rfl rfl
    st.file st.win st.line_count
  by_cases hrc : (CState.readline ⟨st.file, st.serial, st.win, st.line_count, st.trace
      ++ [Ev.write (bytes_at (store buf (a + len) 10) a (len + 1)) st.win.pending]⟩).1 > 0
  · have h1 := balance_read_ack F ⟨st.file, st.serial, st.win, st.line_count, st.trace
      ++ [Ev.write (bytes_at (store buf (a + len) 10) a (len + 1)) st.win.pending]⟩ hF hrc
    have h2 := balance_trans F _ _ _ h0 h1
    have heq : (transmit fw_silent buf a len st).serial = (CState.readline ⟨st.file, st.serial,
        st.win, st.line_count, st.trace
          ++ [Ev.write (bytes_at (store buf (a + len) 10) a (len + 1)) st.win.pending]⟩).2.ack.serial
        ∧ (transmit fw_silent buf a len st).trace = (CState.readline ⟨st.file, st.serial,
        st.win, st.line_count, st.trace
          ++ [Ev.write (bytes_at (store buf (a + len) 10) a (len + 1)) st.win.pending]⟩).2.ack.trace := by
      simp only [transmit, fw_silent, List.append_nil]
      rw [if_pos hrc]
      exact ⟨rfl, rfl⟩
    unfold AckBalance at h2 ⊢
    rw [heq.1, heq.2]
    exact h2
  · have h1 := balance_read_idle F ⟨st.file, st.serial, st.win, st.line_count, st.trace
      ++ [Ev.write (bytes_at (store buf (a + len) 10) a (len + 1)) st.win.pending]⟩ hF hrc
    have h2 := balance_trans F _ _ _ h0 h1
    have heq : (transmit fw_silent buf a len st).serial = (CState.readline ⟨st.file, st.serial,
        st.win, st.line_count, st.trace
          ++ [Ev.write (bytes_at (store buf (a + len) 10) a (len + 1)) st.win.pending]⟩).2.serial
        ∧ (transmit fw_silent buf a len st).trace = (CState.readline ⟨st.file, st.serial,
        st.win, st.line_count, st.trace
          ++ [Ev.write (bytes_at (store buf (a + len) 10) a (len + 1)) st.win.pending]⟩).2.trace := by
      simp only [transmit, fw_silent, List.append_nil]
      rw [if_neg hrc]
      exact ⟨rfl, rfl⟩
    unfold AckBalance at h2 ⊢
    rw [heq.1, heq.2]
    exact h2

theorem stream_loop_balance (F : Nat) : ∀ (fuel : Nat) (st : CState), st.serial.length ≤ F →
    AckBalance F st (stream_loop fw_silent fuel st).2 := by
  intro fuel
  induction fuel with
  | zero => intro st _; exact balance_refl F st
  | succ f ih =>
    intro st hF
    by_cases h0 : (file_readline st.file).2.1 = 0
    · rw [stream_loop_eof fw_silent f st h0]
      exact balance_refl F st
    · cases ht : trim_whitespace (file_readline st.file).1 with
      | none =>
        rw [stream_loop_fault_trim fw_silent f st h0 ht]
        exact balance_refl F st
      | some r =>
        obtain ⟨buf, a⟩ := r
        by_cases hc : buf a = 59
        · rw [stream_loop_comment fw_silent f st buf a h0 ht hc]
          exact balance_trans F st { st with file := (file_readline st.file).2.2 } _
            (balance_refl F st) (ih _ hF)
        · cases hlen : strlen buf (256 - a) a with
          | none =>
            rw [stream_loop_fault_strlen fw_silent f st buf a h0 ht hc hlen]
            exact balance_refl F st
          | some len =>
            have hb0 := balance_note F st (Ev.stage (len % 256)) rfl rfl
              (file_readline st.file).2.2 (stage st.win (len % 256)) st.line_count
            have hb1 := throttle_balance F (st.serial.length + 1)
              (sum (stage st.win (len % 256)).line_lengths)
              { st with file := (file_readline st.file).2.2, win := stage st.win (len % 256),
                        trace := st.trace ++ [Ev.stage (len % 256)] } hF
            rcases hr : throttle (st.serial.length + 1)
              (sum (stage st.win (len % 256)).line_lengths)
              { st with file := (file_readline st.file).2.2, win := stage st.win (len % 256),
                        trace := st.trace ++ [Ev.stage (len % 256)] } with ⟨s, st2⟩
            rw [hr] at hb1
            simp only at hb1
            have hb2 := balance_trans F _ _ _ hb0 hb1
            have hF2 : st2.serial.length ≤ F := by
              have := hb2.1
              omega
            by_cases hs : s = Status.done
            · subst hs
              rw [stream_loop_send fw_silent f st st2 buf a len h0 ht hc hlen hr]
              have hb3 := transmit_balance F buf a (len % 256) st2 hF2
              have hb4 := balance_trans F _ _ _ hb2 hb3
              exact balance_trans F _ _ _ hb4 (ih _ (by have := hb4.1; omega))
            · rw [stream_loop_stall fw_silent f st st2 buf a len s h0 ht hc hlen hr hs]
              exact hb2

theorem controller_balance (file : List Nat) (serial : List (Option Nat)) (F : Nat)
    (hF : serial.length ≤ F) :
    acks (controller fw_silent file serial).2.trace
        + serial_acks F (controller fw_silent file serial).2.serial = serial_acks F serial ∧
      acks (controller fw_silent file serial).2.trace
        = reads_nonzero (controller fw_silent file serial).2.trace := by
  have h1 := stream_loop_balance F (file.length + 1) ⟨file, serial, Window.init, 0, []⟩ hF
  rcases hr : stream_loop fw_silent (file.length + 1) ⟨file, serial, Window.init, 0, []⟩
    with ⟨s, st⟩
  rw [hr] at h1
  have key : AckBalance F ⟨file, serial, Window.init, 0, []⟩
      (controller fw_silent file serial).2 := by
    by_cases hs : s = Status.done
    · subst hs
      have hc : controller fw_silent file serial = drain (st.serial.length + 1) st := by
        simp only [controller, hr]
      rw [hc]
      exact balance_trans F _ _ _ h1 (drain_balance F _ st (by have := h1.1; simp only at this; omega))
    · have hc : controller fw_silent file serial = (s, st) := by
        simp only [controller, hr]
        cases s <;> first | rfl | exact absurd rfl hs
      rw [hc]
      exact h1
  obtain ⟨_, k2, k3⟩ := key
  simp only [acks, reads_nonzero, Nat.zero_add, Nat.add_zero] at k2 k3
  exact ⟨k2, k3⟩

/-! ### For any firmware: an acknowledge step exactly on a non-zero read -/

theorem paired_step (st : CState) :
    (st.readline.1 > 0 →
      acks st.readline.2.ack.trace + reads_nonzero st.trace
        = acks st.trace + reads_nonzero st.readline.2.ack.trace) ∧
    (¬ st.readline.1 > 0 →
      acks st.readline.2.trace + reads_nonzero st.trace
        = acks st.trace + reads_nonzero st.readline.2.trace) := by
  constructor
  · intro hrc
    have hrc1 : (serial_readline st.serial).2.1 > 0 := hrc
    simp only [CState.readline, CState.ack, acks_append, reads_nonzero_append, acks,
      reads_nonzero, if_pos hrc1]
    omega
  · intro hrc
    have hrc1 : ¬ (serial_readline st.serial).2.1 > 0 := hrc
    simp only [CState.readline, acks_append, reads_nonzero_append, acks,
      reads_nonzero, if_neg hrc1]
    omega

theorem throttle_paired : ∀ (fuel s : Nat) (st : CState),
    acks (throttle fuel s st).2.trace + reads_nonzero st.trace
      = acks st.trace + reads_nonzero (throttle fuel s st).2.trace := by
  intro fuel
  induction fuel with
  | zero => intro s st; rfl
  | succ f ih =>
    intro s st
    rw [throttle]
    split
    · cases hs : st.serial with
      | nil => rfl
      | cons e t =>
        simp only
        split
        · rename_i hrc
          have h1 := (paired_step st).1 hrc
          have h2 := ih (sum st.readline.2.ack.win.line_lengths) st.readline.2.ack
          omega
        · rename_i hrc
          have h1 := (paired_step st).2 hrc
          have h2 := ih s st.readline.2
          omega
    · rfl

theorem drain_paired : ∀ (fuel : Nat) (st : CState),
    acks (drain fuel st).2.trace + reads_nonzero st.trace
      = acks st.trace + reads_nonzero (drain fuel st).2.trace := by
  intro fuel
  induction fuel with
  | zero => intro st; rfl
  | succ f ih =>
    intro st
    rw [drain]
    split
    · cases hs : st.serial with
      | nil => rfl
      | cons e t =>
        simp only
        split
        · rename_i hrc
          have h1 := (paired_step st).1 hrc
          have h2 := ih st.readline.2.ack
          omega
        · rename_i hrc
          have h1 := (paired_step st).2 hrc
          have h2 := ih st.readline.2
          omega
    · rfl

theorem transmit_paired (fw : List Nat → List (Option Nat)) (buf : Buf) (a len : Nat)
    (st : CState) :
    acks (transmit fw buf a len st).trace + reads_nonzero st.trace
      = acks st.trace + reads_nonzero (transmit fw buf a len st).trace := by
  obtain ⟨rc, h, _⟩ := transmit_trace fw buf a len st
  rw [h]
  by_cases hrc : rc > 0
  · simp only [acks_append, reads_nonzero_append, acks, reads_nonzero, if_pos hrc]
    omega
  · simp only [acks_append, reads_nonzero_append, acks, reads_nonzero, if_neg hrc]
    omega

theorem stream_loop_paired (fw : List Nat → List (Option Nat)) : ∀ (fuel : Nat) (st : CState),
    acks (stream_loop fw fuel st).2.trace + reads_nonzero st.trace
      = acks st.trace + reads_nonzero (stream_loop fw fuel st).2.trace := by
  intro fuel
  induction fuel with
  | zero => intro st; rfl
  | succ f ih =>
    intro st
    by_cases h0 : (file_readline st.file).2.1 = 0
    · rw [stream_loop_eof fw f st h0]
    · cases ht : trim_whitespace (file_readline st.file).1 with
      | none => rw [stream_loop_fault_trim fw f st h0 ht]
      | some r =>
        obtain ⟨buf, a⟩ := r
        by_cases hc : buf a = 59
        · rw [stream_loop_comment fw f st buf a h0 ht hc]
          exact ih _
        · cases hlen : strlen buf (256 - a) a with
          | none => rw [stream_loop_fault_strlen fw f st buf a h0 ht hc hlen]
          | some len =>
            have hb1 := throttle_paired (st.serial.length + 1)
              (sum (stage st.win (len % 256)).line_lengths)
              { st with file := (file_readline st.file).2.2, win := stage st.win (len % 256),
                        trace := st.trace ++ [Ev.stage (len % 256)] }
            rcases hr : throttle (st.serial.length + 1)
              (sum (stage st.win (len % 256)).line_lengths)
              { st with file := (file_readline st.file).2.2, win := stage st.win (len % 256),
                        trace := st.trace ++ [Ev.stage (len % 256)] } with ⟨s, st2⟩
            rw [hr] at hb1
            simp only [acks_append, reads_nonzero_append, acks, reads_nonzero] at hb1
            by_cases hs : s = Status.done
            · subst hs
              rw [stream_loop_send fw f st st2 buf a len h0 ht hc hlen hr]
              have hb3 := transmit_paired fw buf a (len % 256) st2
              have hb4 := ih (transmit fw buf a (len % 256) st2)
              omega
            · rw [stream_loop_stall fw f st st2 buf a len s h0 ht hc hlen hr hs]
              simp only
              omega

theorem controller_paired (fw : List Nat → List (Option Nat)) (file : List Nat)
    (serial : List (Option Nat)) :
    acks (controller fw file serial).2.trace
      = reads_nonzero (controller fw file serial).2.trace := by
  have h1 := stream_loop_paired fw (file.length + 1) ⟨file, serial, Window.init, 0, []⟩
  rcases hr : stream_loop fw (file.length + 1) ⟨file, serial, Window.init, 0, []⟩ with ⟨s, st⟩
  rw [hr] at h1
  simp only [acks, reads_nonzero, Nat.add_zero, Nat.zero_add] at h1
  by_cases hs : s = Status.done
  · subst hs
    have hc : controller fw file serial = drain (st.serial.length + 1) st := by
      simp only [controller, hr]
    rw [hc]
    have := drain_paired (st.serial.length + 1) st
    omega
  · have hc : controller fw file serial = (s, st) := by
      simp only [controller, hr]
      cases s <;> first | rfl | exact absurd rfl hs
    rw [hc]
    exact h1

/-- C8 (amended): for a stream of `k` newline-terminated lines of at most 254
bytes each, of any content, with any number of read timeouts before, between and
after the lines but none inside a line, the successive `serial_readline` calls
that consume the stream return a non-zero length exactly `k` times; and in the
run of the controller on any command file with that stream as its serial input,
the acknowledge steps performed plus the non-zero results that the unread rest of
the stream still holds are `k`, so that a run that has consumed the stream has
performed exactly `k` acknowledge steps; and in every run, with any firmware, the
acknowledge steps are as many as the reads with a non-zero result. -/
theorem serial_acks_one_per_line (file : List Nat) (lines : List (Nat × List Nat))
    (tail fuel : Nat)
    (hlines : ∀ p ∈ lines, (∀ c ∈ p.2, c ≠ 10) ∧ p.2.length ≤ 254)
    (hfuel : (wire lines ++ List.replicate tail none).length ≤ fuel) :
    serial_acks fuel (wire lines ++ List.replicate tail none) = lines.length ∧
      (∀ (fw : List Nat → List (Option Nat)) (serial : List (Option Nat)),
        acks (controller fw file serial).2.trace
          = reads_nonzero (controller fw file serial).2.trace) ∧
      acks (controller fw_silent file (wire lines ++ List.replicate tail none)).2.trace
        + serial_acks fuel
            (controller fw_silent file (wire lines ++ List.replicate tail none)).2.serial
        = lines.length ∧
      ((controller fw_silent file (wire lines ++ List.replicate tail none)).2.serial = [] →
        acks (controller fw_silent file (wire lines ++ List.replicate tail none)).2.trace
          = lines.length) := by
  have hk := wire_acks lines tail fuel hlines hfuel
  obtain ⟨h1, _⟩ := controller_balance file (wire lines ++ List.replicate tail none) fuel hfuel
  rw [hk] at h1
  refine ⟨hk, fun fw serial => controller_paired fw file serial, h1, ?_⟩
  intro hs
  rw [hs, serial_acks_nil] at h1
  exact h1

theorem serial_acks_one_per_line_witness :
    serial_acks 20 (wire [(0, [111, 107]), (0, [101, 114, 114, 13])] ++ List.replicate 0 none)
        = 2 ∧
      acks (controller fw_silent [71, 49, 10, 71, 50, 10]
        (wire [(0, [111, 107]), (0, [101, 114, 114, 13])] ++ List.replicate 0 none)).2.trace
        = 2 :=
  have h := serial_acks_one_per_line [71, 49, 10, 71, 50, 10]
    [(0, [111, 107]), (0, [101, 114, 114, 13])] 0 20 (by decide) (by decide)
  ⟨h.1, h.2.2.2 (by decide)⟩

end Cncstream
